import Mathlib

/-!
# Verification of the PyToolkit SQL table-name / CTE extractors

Shallow embedding of `cte_parser/cte_parser.py` and
`sql_table_parser/sql_table_parser.py`.  Python strings are modelled as
`List Char`; Python `set` as `Finset`; the `dict` returned by
`SQLTableParser.parse_sql` as an association list in insertion order.

The regular expressions used by the source are all of a deterministic
keyword-anchored shape; each one is embedded as an explicit matcher whose
greedy/backtracking behaviour was derived from the Python `re` semantics
of that concrete pattern.  Character classes (`\s`, `\w`, `str.isspace`)
are modelled on their ASCII fragment.
-/

set_option maxHeartbeats 1000000

namespace PyToolkit

abbrev Str := List Char

/-- Python `\s` / `str.isspace` (ASCII whitespace characters). -/
def pySpace (c : Char) : Bool :=
  c = ' ' || c = '\t' || c = '\n' || c = '\r' || c = '\x0b' || c = '\x0c'

/-- Python `\w` (ASCII fragment): letters, digits, underscore. -/
def wordChar (c : Char) : Bool := c.isAlphanum || c = '_'

/-- The class `[a-zA-Z_]`. -/
def identStart (c : Char) : Bool := c.isAlpha || c = '_'

/-- Case-insensitive literal match: `pat` is given in lowercase; on success
returns the remaining suffix after the matched prefix. -/
def matchCI : Str → Str → Option Str
  | [], s => some s
  | _ :: _, [] => none
  | p :: ps, c :: cs => if c.toLower = p then matchCI ps cs else none

/-- Case-sensitive literal match, returning the remaining suffix. -/
def matchLit : Str → Str → Option Str
  | [], s => some s
  | _ :: _, [] => none
  | p :: ps, c :: cs => if c = p then matchLit ps cs else none

/-- Whether `pat` occurs as a contiguous substring of `s`. -/
def containsStr (pat : Str) (s : Str) : Bool :=
  match s with
  | [] => pat.isEmpty
  | _ :: rest => pat.isPrefixOf s || containsStr pat rest

/-- `re.sub(r'--[^\n]*', '', sql)`: drop everything from `--` to just before
the next newline.  The boolean is the "inside a line comment" mode. -/
def stripLineComments : Bool → Str → Str
  | _, [] => []
  | true, '\n' :: rest => '\n' :: stripLineComments false rest
  | true, _ :: rest => stripLineComments true rest
  | false, '-' :: '-' :: rest => stripLineComments true rest
  | false, c :: rest => c :: stripLineComments false rest

/-- Whether `*/` occurs somewhere in the string. -/
def hasStarSlash : Str → Bool
  | '*' :: '/' :: _ => true
  | _ :: rest => hasStarSlash rest
  | [] => false

/-- `re.sub(r'/\*.*?\*/', '', sql, flags=re.DOTALL)`: non-greedy block-comment
removal.  An unterminated `/*` is not a match (and no later `*/` can exist),
so the rest of the string is kept verbatim. -/
def stripBlockComments : Bool → Str → Str
  | true, '*' :: '/' :: rest => stripBlockComments false rest
  | true, _ :: rest => stripBlockComments true rest
  | _, [] => []
  | false, '/' :: '*' :: rest =>
      if hasStarSlash rest then stripBlockComments true rest
      else '/' :: '*' :: rest
  | false, c :: rest => c :: stripBlockComments false rest

/-- The matcher of `re.compile(r'\bWITH\s+(?:RECURSIVE\s+)?', re.IGNORECASE)`
at the head of `s`; `prevWord` tells whether the character before `s` is a
word character (for `\b`).  Returns `(matched text, suffix after match)`. -/
def tryWith (prevWord : Bool) (s : Str) : Option (Str × Str) :=
  if prevWord then none else
  match matchCI ['w', 'i', 't', 'h'] s with
  | none => none
  | some r1 =>
    let ws1 := r1.takeWhile pySpace
    if ws1.isEmpty then none else
    let r2 := r1.dropWhile pySpace
    let base := s.take 4 ++ ws1
    match matchCI ['r', 'e', 'c', 'u', 'r', 's', 'i', 'v', 'e'] r2 with
    | some r3 =>
      let ws2 := r3.takeWhile pySpace
      if ws2.isEmpty then some (base, r2)
      else some (base ++ r2.take 9 ++ ws2, r3.dropWhile pySpace)
    | none => some (base, r2)

/-- `re.match(r'([a-zA-Z_][a-zA-Z0-9_]*)\s+AS\s*\(', s, re.IGNORECASE)`:
on success returns `(identifier, suffix after the opening parenthesis)`. -/
def nameASparen : Str → Option (Str × Str)
  | [] => none
  | c :: rest =>
    if identStart c then
      let ident := c :: rest.takeWhile wordChar
      let r1 := rest.dropWhile wordChar
      if (r1.takeWhile pySpace).isEmpty then none else
      match r1.dropWhile pySpace with
      | a :: s2 :: r2 =>
        if a.toLower = 'a' && s2.toLower = 's' then
          match r2.dropWhile pySpace with
          | '(' :: r3 => some (ident, r3)
          | _ => none
        else none
      | _ => none
    else none

/-- The `paren_count` loop of both CTE scanners: consume until the open
parenthesis depth returns to zero or the input ends. -/
def skipParens : Str → Nat → Str
  | s, 0 => s
  | [], _ => []
  | '(' :: rest, n + 1 => skipParens rest (n + 2)
  | ')' :: rest, n + 1 => skipParens rest n
  | _ :: rest, n + 1 => skipParens rest (n + 1)

/-- One `WITH` clause's `while pos < len` loop of
`CTEParser.extract_cte_names`, with step fuel (any fuel above the input
length is enough, each step consumes at least one character). -/
def clauseNamesF : Nat → Str → List Str
  | 0, _ => []
  | fuel + 1, s =>
    match nameASparen (s.dropWhile pySpace) with
    | none => []
    | some (name, rest) =>
      match (skipParens rest 1).dropWhile pySpace with
      | ',' :: r3 => name :: clauseNamesF fuel r3
      | _ => [name]

def clauseNames (s : Str) : List Str := clauseNamesF (s.length + 1) s

/-- Generic `finditer`: scan left to right, try the matcher at every
position, skip over each (non-overlapping) match; `pw` tracks whether the
previous character is a word character.  Returns the list of
`(matched text, suffix after match)` pairs in text order. -/
def reFind (tm : Bool → Str → Option (Str × Str)) : Nat → Bool → Str → List (Str × Str)
  | 0, _, _ => []
  | _ + 1, _, [] => []
  | fuel + 1, pw, c :: rest =>
    match tm pw (c :: rest) with
    | some (t, r) => (t, r) :: reFind tm fuel (wordChar (t.getLastD ' ')) r
    | none => reFind tm fuel (wordChar c) rest

namespace CTEParser

/-- `CTEParser.remove_comments`. -/
def remove_comments (sql : Str) : Str :=
  stripBlockComments false (stripLineComments false sql)

/-- `CTEParser.extract_cte_names`: comment removal, then for every match of
the `WITH` pattern run the clause loop from the end of the match;
the names of all clause starts are concatenated in text order. -/
def extract_cte_names (sql : Str) : List Str :=
  let clean := remove_comments sql
  ((reFind tryWith (clean.length + 1) false clean).map fun p => clauseNames p.2).flatten

end CTEParser

namespace SQLTableParser

/-- `self.sql_keywords`. -/
def sql_keywords : List Str :=
  ["SELECT".data, "FROM".data, "WHERE".data, "JOIN".data, "INNER".data, "LEFT".data,
   "RIGHT".data, "FULL".data, "CROSS".data, "ON".data, "AND".data, "OR".data,
   "NOT".data, "IN".data, "EXISTS".data, "BETWEEN".data, "LIKE".data, "INSERT".data,
   "INTO".data, "VALUES".data, "UPDATE".data, "SET".data, "DELETE".data, "CREATE".data,
   "DROP".data, "ALTER".data, "TABLE".data, "INDEX".data, "VIEW".data, "DATABASE".data,
   "SCHEMA".data, "AS".data, "WITH".data, "UNION".data, "INTERSECT".data, "EXCEPT".data,
   "ORDER".data, "BY".data, "GROUP".data, "HAVING".data, "LIMIT".data, "OFFSET".data,
   "DISTINCT".data, "ALL".data, "ANY".data, "SOME".data, "CASE".data, "WHEN".data,
   "THEN".data, "ELSE".data, "END".data, "IF".data, "NULL".data, "IS".data,
   "TRUE".data, "FALSE".data, "TRUNCATE".data, "ASC".data, "DESC".data, "PRIMARY".data,
   "KEY".data, "FOREIGN".data, "REFERENCES".data, "CONSTRAINT".data, "UNIQUE".data,
   "CHECK".data, "DEFAULT".data, "AUTO_INCREMENT".data, "CASCADE".data]

/-- Python `str.strip` with an explicit character predicate: remove matching
characters from both ends. -/
def pyStripWith (p : Char → Bool) (l : Str) : Str :=
  ((l.dropWhile p).reverse.dropWhile p).reverse

def isQuoteChar (c : Char) : Bool := c = '`' || c = '"'

/-- `SQLTableParser.clean_table_name`: `strip()` then `strip('`\x22')`. -/
def clean_table_name (t : Str) : Str :=
  pyStripWith isQuoteChar (pyStripWith pySpace t)

/-- Python `str.split(sep)` for a one-character separator (the accumulator
holds the current field reversed). -/
def splitOnCharAux (sep : Char) : Str → Str → List Str
  | cur, [] => [cur.reverse]
  | cur, c :: rest =>
    if c = sep then cur.reverse :: splitOnCharAux sep [] rest
    else splitOnCharAux sep (c :: cur) rest

/-- Python `str.split('.')`. -/
def splitDot (l : Str) : List Str := splitOnCharAux '.' [] l

/-- `re.match(r'^[a-zA-Z_]\w*$', s)` viewed as a boolean: note that in
Python `$` also matches just before a single trailing newline. -/
def identShape (l : Str) : Bool :=
  let core := if l.getLast? = some '\n' then l.dropLast else l
  match core with
  | [] => false
  | c :: cs => identStart c && cs.all wordChar

/-- The validation key of `is_valid_table_name`: the cleaned name, reduced
to its final `.`-segment (stripped of quotes) when qualified. -/
def validationKey (t : Str) : Str :=
  let clean := clean_table_name t
  if clean.contains '.' then pyStripWith isQuoteChar ((splitDot clean).getLastD [])
  else clean

/-- `SQLTableParser.is_valid_table_name`. -/
def is_valid_table_name (t : Str) : Bool :=
  if t.isEmpty then false else
  let key := validationKey t
  if key.map Char.toUpper ∈ sql_keywords then false else identShape key

/-- Python `str.split()` with no argument: maximal runs of non-whitespace. -/
def splitWsAux : Str → Str → List Str
  | cur, [] => if cur.isEmpty then [] else [cur.reverse]
  | cur, c :: rest =>
    if pySpace c then
      if cur.isEmpty then splitWsAux [] rest else cur.reverse :: splitWsAux [] rest
    else splitWsAux (c :: cur) rest

def splitWs (l : Str) : List Str := splitWsAux [] l

/-- The table-token alternation
`` (?:`[^`]+`|"[^"]+"|[\w]+\.[\w]+|[\w]+) `` tried at the head of `s`,
alternatives in the regex priority order. -/
def tpTok : Str → Option (Str × Str)
  | [] => none
  | '`' :: rest =>
    let run := rest.takeWhile (· ≠ '`')
    if run.isEmpty then none else
    match rest.dropWhile (· ≠ '`') with
    | '`' :: r2 => some ('`' :: (run ++ ['`']), r2)
    | _ => none
  | '"' :: rest =>
    let run := rest.takeWhile (· ≠ '"')
    if run.isEmpty then none else
    match rest.dropWhile (· ≠ '"') with
    | '"' :: r2 => some ('"' :: (run ++ ['"']), r2)
    | _ => none
  | c :: rest =>
    if wordChar c then
      let w := c :: rest.takeWhile wordChar
      let r1 := rest.dropWhile wordChar
      match r1 with
      | '.' :: r2 =>
        let w2 := r2.takeWhile wordChar
        if w2.isEmpty then some (w, r1)
        else some (w ++ '.' :: w2, r2.dropWhile wordChar)
      | _ => some (w, r1)
    else none

/-- One case-insensitive keyword followed by `\s+` (at least one whitespace
character, maximal run).  Returns `(matched text, rest)`. -/
def kwTok (w : Str) (s : Str) : Option (Str × Str) :=
  match matchCI w s with
  | none => none
  | some r =>
    let ws := r.takeWhile pySpace
    if ws.isEmpty then none else some (s.take w.length ++ ws, r.dropWhile pySpace)

/-- A sequence of whitespace-separated keywords, e.g. `INSERT\s+INTO\s+`. -/
def kwSeq : List Str → Str → Option (Str × Str)
  | [], s => some ([], s)
  | w :: ws, s =>
    match kwTok w s with
    | none => none
    | some (t, r) =>
      match kwSeq ws r with
      | none => none
      | some (t2, r2) => some (t ++ t2, r2)

/-- One keyword alternative, an optional keyword group (for
`IF NOT EXISTS` / `IF EXISTS` / `TRUNCATE (TABLE)?`), then the table token.
When the optional group matches but the table token then fails, the regex
backtracks and retries the table token without the group. -/
def tryAlt (alt : List Str) (opt : List Str) (s : Str) : Option (Str × Str) :=
  match kwSeq alt s with
  | none => none
  | some (t1, r1) =>
    match opt with
    | [] =>
      match tpTok r1 with
      | none => none
      | some (t2, r2) => some (t1 ++ t2, r2)
    | _ :: _ =>
      match kwSeq opt r1 with
      | none =>
        match tpTok r1 with
        | none => none
        | some (t2, r2) => some (t1 ++ t2, r2)
      | some (t2, r2) =>
        match tpTok r2 with
        | some (t3, r3) => some (t1 ++ t2 ++ t3, r3)
        | none =>
          match tpTok r1 with
          | none => none
          | some (t4, r4) => some (t1 ++ t4, r4)

/-- Keyword alternation: alternatives tried in regex order. -/
def tryAlts (alts : List (List Str)) (opt : List Str) (s : Str) : Option (Str × Str) :=
  match alts with
  | [] => none
  | a :: rest =>
    match tryAlt a opt s with
    | some x => some x
    | none => tryAlts rest opt s

/-- The matcher of one statement-kind pattern
`\b<keywords>\s+(?:<optional>\s+)?<table token>` (all case-insensitive). -/
def tryPat (alts : List (List Str)) (opt : List Str) (pw : Bool) (s : Str) :
    Option (Str × Str) :=
  if pw then none else tryAlts alts opt s

/-- The matcher of the `'cte'` pattern `\bWITH\s+(\w+)\s+AS`. -/
def tryCte (pw : Bool) (s : Str) : Option (Str × Str) :=
  if pw then none else
  match kwTok "with".data s with
  | none => none
  | some (t1, r1) =>
    let w := r1.takeWhile wordChar
    if w.isEmpty then none else
    let r2 := r1.dropWhile wordChar
    let ws2 := r2.takeWhile pySpace
    if ws2.isEmpty then none else
    let r3 := r2.dropWhile pySpace
    match matchCI ['a', 's'] r3 with
    | none => none
    | some r4 => some (t1 ++ w ++ ws2 ++ r3.take 2, r4)

/-- The per-match body of `extract_tables_from_pattern`: take the last
whitespace-delimited part of the matched text, clean it, and add it to the
accumulator when it validates. -/
def tableAcc (acc : Finset Str) (t : Str) : Finset Str :=
  match (splitWs t).getLast? with
  | none => acc
  | some tn =>
    let clean := clean_table_name tn
    if is_valid_table_name clean then insert clean acc else acc

/-- `SQLTableParser.extract_tables_from_pattern`. -/
def extract_tables_from_pattern (tm : Bool → Str → Option (Str × Str)) (sql : Str) :
    Finset Str :=
  (reFind tm (sql.length + 1) false sql).foldl (fun acc p => tableAcc acc p.1) ∅

/-- `self.patterns`, in definition (= dict iteration) order. -/
def patternList : List (String × (Bool → Str → Option (Str × Str))) :=
  [("select_from", tryPat [["from".data]] []),
   ("join", tryPat [["inner".data, "join".data], ["left".data, "join".data],
                    ["right".data, "join".data], ["full".data, "join".data],
                    ["cross".data, "join".data], ["join".data]] []),
   ("insert", tryPat [["insert".data, "into".data]] []),
   ("update", tryPat [["update".data]] []),
   ("delete", tryPat [["delete".data, "from".data]] []),
   ("create", tryPat [["create".data, "table".data]]
              ["if".data, "not".data, "exists".data]),
   ("drop", tryPat [["drop".data, "table".data]] ["if".data, "exists".data]),
   ("alter", tryPat [["alter".data, "table".data]] []),
   ("truncate", tryPat [["truncate".data]] ["table".data]),
   ("cte", tryCte)]

/-- One `WITH` clause's `while` loop of `SQLTableParser.extract_cte_names`:
the same loop as `clauseNamesF`, accumulating into a set. -/
def cteSetF : Nat → Str → Finset Str
  | 0, _ => ∅
  | fuel + 1, s =>
    match nameASparen (s.dropWhile pySpace) with
    | none => ∅
    | some (name, rest) =>
      match (skipParens rest 1).dropWhile pySpace with
      | ',' :: r3 => insert name (cteSetF fuel r3)
      | _ => {name}

/-- `SQLTableParser.extract_cte_names` (the set-returning near-duplicate of
the `CTEParser` scanner; no comment removal of its own). -/
def extract_cte_names (sql : Str) : Finset Str :=
  (reFind tryWith (sql.length + 1) false sql).foldl
    (fun acc p => acc ∪ cteSetF (p.2.length + 1) p.2) ∅

/-- `SQLTableParser.remove_comments` (identical to the `CTEParser` one). -/
def remove_comments (sql : Str) : Str :=
  stripBlockComments false (stripLineComments false sql)

/-- Generic `re.sub(pattern, '', text, flags=re.MULTILINE)` for a pattern
anchored by `^`: the matcher is tried only at the start of the text and
right after each newline; matched segments are dropped. -/
def reSub (tm : Str → Option (Str × Str)) : Nat → Bool → Str → Str
  | 0, _, s => s
  | _ + 1, _, [] => []
  | fuel + 1, anchor, c :: rest =>
    if anchor then
      match tm (c :: rest) with
      | some (t, r) => reSub tm fuel (t.getLastD ' ' == '\n') r
      | none => c :: reSub tm fuel (c == '\n') rest
    else c :: reSub tm fuel (c == '\n') rest

/-- Strip trailing newlines. -/
def dropTrailingNl (l : Str) : Str := (l.reverse.dropWhile (· == '\n')).reverse

/-- The tail `\s+[^\n]+` (with `plus = true`) or `\s*[^\n]+` (`plus =
false`) of the line-removal patterns.  `\s` crosses newlines; when the
whitespace run reaches the end of the input, the regex backtracks so that
`[^\n]+` eats the run's trailing non-newline whitespace. -/
def spacesThenNonNl (plus : Bool) (s : Str) : Option (Str × Str) :=
  let w := s.takeWhile pySpace
  let r := s.dropWhile pySpace
  if plus && w.isEmpty then none
  else
    match r with
    | _ :: _ => some (w ++ r.takeWhile (· ≠ '\n'), r.dropWhile (· ≠ '\n'))
    | [] =>
      let core := dropTrailingNl w
      if core.length ≥ (if plus then 2 else 1) then some (core, s.drop core.length)
      else none

/-- `^\s*import\s+[^\n]+`. -/
def tryImportLine (s : Str) : Option (Str × Str) :=
  let w0 := s.takeWhile pySpace
  match matchLit "import".data (s.dropWhile pySpace) with
  | none => none
  | some r1 =>
    match spacesThenNonNl true r1 with
    | none => none
    | some (t2, r2) => some (w0 ++ "import".data ++ t2, r2)

/-- `^\s*from\s+[a-zA-Z_][a-zA-Z0-9_.]*\s+import\s+[^\n]+`. -/
def tryFromImportLine (s : Str) : Option (Str × Str) :=
  let w0 := s.takeWhile pySpace
  match matchLit "from".data (s.dropWhile pySpace) with
  | none => none
  | some r1 =>
    let ws1 := r1.takeWhile pySpace
    if ws1.isEmpty then none else
    match r1.dropWhile pySpace with
    | [] => none
    | c :: r2 =>
      if identStart c then
        let modRest := r2.takeWhile (fun d => wordChar d || d = '.')
        let r3 := r2.dropWhile (fun d => wordChar d || d = '.')
        let ws2 := r3.takeWhile pySpace
        if ws2.isEmpty then none else
        match matchLit "import".data (r3.dropWhile pySpace) with
        | none => none
        | some r4 =>
          match spacesThenNonNl true r4 with
          | none => none
          | some (t5, r5) =>
            some (w0 ++ "from".data ++ ws1 ++ c :: modRest ++ ws2 ++ "import".data ++ t5, r5)
      else none

/-- `^#!.*python[^\n]*`: a `#!` line containing `python` is removed whole. -/
def tryPyShebang (s : Str) : Option (Str × Str) :=
  match s with
  | '#' :: '!' :: rest =>
    let line := rest.takeWhile (· ≠ '\n')
    if containsStr "python".data line then
      some ('#' :: '!' :: line, rest.dropWhile (· ≠ '\n'))
    else none
  | _ => none

/-- The `.*coding[=:]\s*[^\n]+` part after the `#`: the greedy `.*` prefers
the rightmost `coding[=:]` occurrence on the current line for which the
tail matches, falling back leftwards. -/
def tryCodingTail : Str → Option (Str × Str)
  | [] => none
  | c :: rest =>
    if c = '\n' then none
    else
      match tryCodingTail rest with
      | some (t, r) => some (c :: t, r)
      | none =>
        match c :: rest with
        | 'c' :: 'o' :: 'd' :: 'i' :: 'n' :: 'g' :: d :: r2 =>
          if d = '=' || d = ':' then
            match spacesThenNonNl false r2 with
            | some (t3, r3) =>
              some ('c' :: 'o' :: 'd' :: 'i' :: 'n' :: 'g' :: d :: t3, r3)
            | none => none
          else none
        | _ => none

/-- `^#.*coding[=:]\s*[^\n]+`. -/
def tryCodingLine (s : Str) : Option (Str × Str) :=
  match s with
  | '#' :: rest =>
    match tryCodingTail rest with
    | some (t, r) => some ('#' :: t, r)
    | none => none
  | _ => none

/-- `^#!/bin/(ba)?sh[^\n]*`. -/
def tryShShebang (s : Str) : Option (Str × Str) :=
  match matchLit "#!/bin/".data s with
  | none => none
  | some r =>
    match matchLit "bash".data r with
    | some r2 =>
      some ("#!/bin/bash".data ++ r2.takeWhile (· ≠ '\n'), r2.dropWhile (· ≠ '\n'))
    | none =>
      match matchLit "sh".data r with
      | some r2 =>
        some ("#!/bin/sh".data ++ r2.takeWhile (· ≠ '\n'), r2.dropWhile (· ≠ '\n'))
      | none => none

/-- `^#!/usr/bin/env\s+(ba)?sh[^\n]*`. -/
def tryEnvShShebang (s : Str) : Option (Str × Str) :=
  match matchLit "#!/usr/bin/env".data s with
  | none => none
  | some r =>
    let ws := r.takeWhile pySpace
    if ws.isEmpty then none else
    let r1 := r.dropWhile pySpace
    match matchLit "bash".data r1 with
    | some r2 =>
      some ("#!/usr/bin/env".data ++ ws ++ "bash".data ++ r2.takeWhile (· ≠ '\n'),
            r2.dropWhile (· ≠ '\n'))
    | none =>
      match matchLit "sh".data r1 with
      | some r2 =>
        some ("#!/usr/bin/env".data ++ ws ++ "sh".data ++ r2.takeWhile (· ≠ '\n'),
              r2.dropWhile (· ≠ '\n'))
      | none => none

/-- `^\s*#[^!][^\n]*` (note `[^!]` may itself be a newline). -/
def tryHashComment (s : Str) : Option (Str × Str) :=
  let w0 := s.takeWhile pySpace
  match s.dropWhile pySpace with
  | '#' :: c2 :: rest =>
    if c2 = '!' then none
    else some (w0 ++ '#' :: c2 :: rest.takeWhile (· ≠ '\n'), rest.dropWhile (· ≠ '\n'))
  | _ => none

/-- `^\s*#$`. -/
def tryHashEnd (s : Str) : Option (Str × Str) :=
  let w0 := s.takeWhile pySpace
  match s.dropWhile pySpace with
  | ['#'] => some (w0 ++ ['#'], [])
  | '#' :: '\n' :: rest => some (w0 ++ ['#'], '\n' :: rest)
  | _ => none

/-- `SQLTableParser.remove_non_sql_code`: the eight `re.sub` passes in
source order. -/
def remove_non_sql_code (content : Str) : Str :=
  let c1 := reSub tryImportLine (content.length + 1) true content
  let c2 := reSub tryFromImportLine (c1.length + 1) true c1
  let c3 := reSub tryPyShebang (c2.length + 1) true c2
  let c4 := reSub tryCodingLine (c3.length + 1) true c3
  let c5 := reSub tryShShebang (c4.length + 1) true c4
  let c6 := reSub tryEnvShShebang (c5.length + 1) true c5
  let c7 := reSub tryHashComment (c6.length + 1) true c6
  reSub tryHashEnd (c7.length + 1) true c7

/-- One iteration of the pattern loop of `SQLTableParser.parse_sql`:
extract the pattern's tables, and when nonempty subtract the CTE names;
when still nonempty record the entry and extend the running union. -/
def parseStep (s2 : Str) (cte : Finset Str)
    (acc : List (String × Finset Str) × Finset Str)
    (p : String × (Bool → Str → Option (Str × Str))) :
    List (String × Finset Str) × Finset Str :=
  let tables := extract_tables_from_pattern p.2 s2
  if tables = ∅ then acc
  else
    let t2 := tables \ cte
    if t2 = ∅ then acc else (acc.1 ++ [(p.1, t2)], acc.2 ∪ t2)

/-- The entry that `parseStep` appends for a pattern, if any. -/
def entryOf (s2 : Str) (cte : Finset Str)
    (p : String × (Bool → Str → Option (Str × Str))) :
    Option (String × Finset Str) :=
  let tables := extract_tables_from_pattern p.2 s2
  if tables = ∅ then none
  else
    let t2 := tables \ cte
    if t2 = ∅ then none else some (p.1, t2)

/-- `SQLTableParser.parse_sql`: preprocessing, comment removal, CTE
extraction, per-pattern extraction with CTE subtraction, then the
`all_tables` and (if any) `cte_tables` entries.  The result models the
Python dict as an association list in insertion order. -/
def parse_sql (sql : Str) (preprocess : Bool) : List (String × Finset Str) :=
  let s1 := if preprocess then remove_non_sql_code sql else sql
  let s2 := remove_comments s1
  let cte := extract_cte_names s2
  let folded := patternList.foldl (parseStep s2 cte) ([], ∅)
  (folded.1 ++ [("all_tables", folded.2)]) ++
    (if cte = ∅ then [] else [("cte_tables", cte)])

/-- The two boundary errors of `SQLTableParser.parse_file`. -/
inductive ParseError where
  | fileNotFound : ParseError
  | unsupportedKind : ParseError
deriving DecidableEq

/-- `pathlib.PurePath.suffix` of the final path component: the part from
the last dot when that dot is neither the first nor the last character of
the name.  Empty components and `'.'` components are dropped as in
`pathlib`. -/
def pathSuffix (path : Str) : Str :=
  let name :=
    ((splitOnCharAux '/' [] path).filter fun c => !(c.isEmpty || c = ['.'])).getLastD []
  if name.contains '.' then
    let ext := (name.reverse.takeWhile (· ≠ '.')).reverse
    if decide (ext.length + 1 < name.length) && !ext.isEmpty then '.' :: ext else []
  else []

def supported_extensions : List Str := [".sql".data, ".py".data, ".sh".data]

/-- `SQLTableParser.parse_file` over an abstract read-only file system
`fs` mapping a path to its content when the file exists. -/
def parse_file (fs : Str → Option Str) (path : Str) :
    Except ParseError (List (String × Finset Str)) :=
  match fs path with
  | none => .error .fileNotFound
  | some content =>
    let suffix := (pathSuffix path).map Char.toLower
    if suffix ∈ supported_extensions then
      .ok (parse_sql content (suffix ∈ [".py".data, ".sh".data]))
    else .error .unsupportedKind

end SQLTableParser

/-! ## Specification-side vocabulary used to state the claims -/

/-- A single CTE definition `name AS ( body )` of a `WITH` clause. -/
structure CTEDefn where
  name : Str
  body : Str

/-- Renders the comma-separated definition list of a `WITH` clause. -/
def renderDefs : List CTEDefn → Str
  | [] => []
  | [d] => d.name ++ " AS (".data ++ d.body ++ [')']
  | d :: ds => d.name ++ " AS (".data ++ d.body ++ "), ".data ++ renderDefs ds

/-- An identifier in the sense of the scanner's name pattern
`[a-zA-Z_][a-zA-Z0-9_]*`. -/
def isIdent : Str → Bool
  | [] => false
  | c :: cs => identStart c && cs.all wordChar

/-- `balAux l n` holds when scanning `l` from open-parenthesis depth `n`
ends exactly at depth `0` and the depth never underflows. -/
def balAux : Str → Nat → Bool
  | [], n => n = 0
  | '(' :: t, n => balAux t (n + 1)
  | ')' :: t, n => match n with | 0 => false | m + 1 => balAux t m
  | _ :: t, n => balAux t n

/-- Whether the word `WITH` occurs case-insensitively in `s`. -/
def hasWithCI (s : Str) : Bool := containsStr "with".data (s.map Char.toLower)

/-- A two-file read-only file system used to instantiate the `parse_file`
theorem. -/
def fsDemo (p : Str) : Option Str :=
  if p = "a.sql".data then some "SELECT * FROM demo".data
  else if p = "b.txt".data then some "SELECT * FROM demo".data
  else none

/-- The text `parse_sql` actually extracts from: after the optional
non-SQL-code pass and comment removal. -/
def procText (sql : Str) (preprocess : Bool) : Str :=
  SQLTableParser.remove_comments
    (if preprocess then SQLTableParser.remove_non_sql_code sql else sql)

/-- The CTE-name set `parse_sql` subtracts. -/
def cteOf (sql : Str) (preprocess : Bool) : Finset Str :=
  SQLTableParser.extract_cte_names (procText sql preprocess)

/-- The `all_tables` union accumulated by `parse_sql`'s pattern fold. -/
def allOf (sql : Str) (preprocess : Bool) : Finset Str :=
  (SQLTableParser.patternList.foldl
    (SQLTableParser.parseStep (procText sql preprocess) (cteOf sql preprocess))
    ([], ∅)).2

/-! ## Theorems -/

/-- C5: CTE extraction is a total function of the input (every indexing
step of the source loop is bounds-guarded, and the embedding is a plain
total function); in particular, on the unterminated input
`WITH x AS (SELECT * FROM y` the open parenthesis is consumed to the end
of the input and the scanner returns exactly `["x"]`. -/
theorem extract_cte_unterminated :
    CTEParser.extract_cte_names "WITH x AS (SELECT * FROM y".data = ["x".data] := by
  decide

/-- C2 (counterexample): on
`WITH a AS (SELECT 1), b AS (SELECT * FROM a) SELECT * FROM b, c;`
the `all_tables` set produced by `parse_sql` is empty, not `{"c"}`:
the `FROM` pattern captures a single table token, so the `c` of
`FROM b, c` is never extracted. -/
theorem parse_sql_scenario_all_tables_empty :
    (SQLTableParser.parse_sql
        "WITH a AS (SELECT 1), b AS (SELECT * FROM a) SELECT * FROM b, c;".data
        true).lookup "all_tables" = some (∅ : Finset Str) ∧
    some (∅ : Finset Str) ≠ some ({"c".data} : Finset Str) := by
  exact ⟨by decide, by decide⟩

/-- C2 (amended): on the same input `extract_cte_names` returns
`["a", "b"]` in definition order, and `parse_sql` yields an empty
`all_tables` set with `cte_tables = {"a", "b"}`. -/
theorem parse_sql_scenario_behaviour :
    CTEParser.extract_cte_names
        "WITH a AS (SELECT 1), b AS (SELECT * FROM a) SELECT * FROM b, c;".data
      = ["a".data, "b".data] ∧
    (SQLTableParser.parse_sql
        "WITH a AS (SELECT 1), b AS (SELECT * FROM a) SELECT * FROM b, c;".data
        true).lookup "all_tables" = some (∅ : Finset Str) ∧
    (SQLTableParser.parse_sql
        "WITH a AS (SELECT 1), b AS (SELECT * FROM a) SELECT * FROM b, c;".data
        true).lookup "cte_tables" = some ({"a".data, "b".data} : Finset Str) := by
  exact ⟨by decide, by decide, by decide⟩

/-- C3 (counterexample): for `SELECT * FROM sales.orders` the name stored
in the `select_from` set is the full cleaned token `sales.orders`; the
final segment `orders` is not an element of the set. -/
theorem parse_sql_qualified_stores_full_token :
    (SQLTableParser.parse_sql "SELECT * FROM sales.orders".data true).lookup "select_from"
      = some ({"sales.orders".data} : Finset Str) ∧
    "orders".data ∉ ({"sales.orders".data} : Finset Str) := by
  exact ⟨by decide, by decide⟩

/-- C3 (amended): for `SELECT * FROM sales.orders` the name added to
`select_from` and `all_tables` is `sales.orders`; the final segment
`orders` is used only as the validation key. -/
theorem parse_sql_qualified_behaviour :
    (SQLTableParser.parse_sql "SELECT * FROM sales.orders".data true).lookup "select_from"
      = some ({"sales.orders".data} : Finset Str) ∧
    (SQLTableParser.parse_sql "SELECT * FROM sales.orders".data true).lookup "all_tables"
      = some ({"sales.orders".data} : Finset Str) ∧
    SQLTableParser.validationKey "sales.orders".data = "orders".data ∧
    SQLTableParser.is_valid_table_name "sales.orders".data = true := by
  exact ⟨by decide, by decide, by decide, by decide⟩

/-- C8: `parse_file` fails with `fileNotFound` exactly when the path is
absent from the file system, fails with `unsupportedKind` exactly when the
path exists but its lowercased extension is outside `{.sql, .py, .sh}`,
and on every supported input it returns the (total) `parse_sql` result. -/
theorem parse_file_boundary_errors (fs : Str → Option Str) (path : Str) :
    (SQLTableParser.parse_file fs path = .error .fileNotFound ↔ fs path = none) ∧
    (SQLTableParser.parse_file fs path = .error .unsupportedKind ↔
      (∃ content, fs path = some content) ∧
        (SQLTableParser.pathSuffix path).map Char.toLower ∉
          SQLTableParser.supported_extensions) ∧
    (∀ content, fs path = some content →
      (SQLTableParser.pathSuffix path).map Char.toLower ∈
          SQLTableParser.supported_extensions →
      SQLTableParser.parse_file fs path =
        .ok (SQLTableParser.parse_sql content
          (decide ((SQLTableParser.pathSuffix path).map Char.toLower ∈
            [".py".data, ".sh".data])))) := by
  unfold SQLTableParser.parse_file
  cases h : fs path with
  | none => simp
  | some content =>
    by_cases hs : (SQLTableParser.pathSuffix path).map Char.toLower ∈
        SQLTableParser.supported_extensions
    · simp [hs]
    · simp [hs]

/-- Witness for C8 at a concrete file system: a found `.sql` file parses,
a missing path reports `fileNotFound`, and a `.txt` file reports
`unsupportedKind`. -/
theorem parse_file_boundary_errors_witness :
    SQLTableParser.parse_file fsDemo "a.sql".data =
      .ok (SQLTableParser.parse_sql "SELECT * FROM demo".data false) ∧
    SQLTableParser.parse_file fsDemo "missing.sql".data = .error .fileNotFound ∧
    SQLTableParser.parse_file fsDemo "b.txt".data = .error .unsupportedKind := by
  refine ⟨?_, ?_, ?_⟩
  · exact (parse_file_boundary_errors fsDemo "a.sql".data).2.2
      "SELECT * FROM demo".data (by decide) (by decide)
  · exact (parse_file_boundary_errors fsDemo "missing.sql".data).1.mpr (by decide)
  · exact (parse_file_boundary_errors fsDemo "b.txt".data).2.1.mpr
      ⟨⟨"SELECT * FROM demo".data, by decide⟩, by decide⟩

/-- The set-accumulating clause loop of `SQLTableParser.extract_cte_names`
computes exactly the set of the name list produced by the
`CTEParser.extract_cte_names` clause loop. -/
theorem cteSetF_eq_toFinset :
    ∀ fuel s, SQLTableParser.cteSetF fuel s = (clauseNamesF fuel s).toFinset := by
  intro fuel
  induction fuel with
  | zero => intro s; rfl
  | succ f ih =>
    intro s
    cases h : nameASparen (s.dropWhile pySpace) with
    | none => simp [SQLTableParser.cteSetF, clauseNamesF, h]
    | some p =>
      obtain ⟨name, rest⟩ := p
      cases h2 : (skipParens rest 1).dropWhile pySpace with
      | nil => simp [SQLTableParser.cteSetF, clauseNamesF, h, h2]
      | cons c r3 =>
        by_cases hc : c = ','
        · subst hc
          simp [SQLTableParser.cteSetF, clauseNamesF, h, h2, ih]
        · have e1 : SQLTableParser.cteSetF (f + 1) s = {name} := by
            unfold SQLTableParser.cteSetF
            simp only [h]
            rw [h2]
            split
            · simp_all
            · rfl
          have e2 : clauseNamesF (f + 1) s = [name] := by
            unfold clauseNamesF
            simp only [h]
            rw [h2]
            split
            · simp_all
            · rfl
          rw [e1, e2]
          simp

/-- Folding set-unions of the clause loop over the clause starts computes
the set of the concatenated name lists. -/
theorem fold_union_toFinset (L : List (Str × Str)) :
    ∀ A : Finset Str,
      L.foldl (fun acc p => acc ∪ SQLTableParser.cteSetF (p.2.length + 1) p.2) A
        = A ∪ ((L.map fun p => clauseNames p.2).flatten).toFinset := by
  induction L with
  | nil => intro A; simp
  | cons p L ih =>
    intro A
    simp only [List.foldl_cons, List.map_cons, List.flatten_cons]
    rw [ih, cteSetF_eq_toFinset]
    simp [clauseNames, Finset.union_assoc]

/-- C10: on every comment-free input (a fixed point of comment removal)
the set-returning scanner `SQLTableParser.extract_cte_names` returns
exactly the set of elements of the list returned by
`CTEParser.extract_cte_names`. -/
theorem extract_cte_names_agree (sql : Str)
    (h : CTEParser.remove_comments sql = sql) :
    SQLTableParser.extract_cte_names sql
      = (CTEParser.extract_cte_names sql).toFinset := by
  unfold SQLTableParser.extract_cte_names CTEParser.extract_cte_names
  rw [h, fold_union_toFinset]
  simp

/-- Witness for C10 at a concrete comment-free input. -/
theorem extract_cte_names_agree_witness :
    SQLTableParser.extract_cte_names "WITH a AS (SELECT 1) SELECT * FROM a".data
      = (CTEParser.extract_cte_names "WITH a AS (SELECT 1) SELECT * FROM a".data).toFinset :=
  extract_cte_names_agree _ (by decide)

/-- A character whose lowercasing is `a` is `a` or `A`. -/
theorem toLower_eq_a {c : Char} (h : c.toLower = 'a') : c = 'a' ∨ c = 'A' := by
  unfold Char.toLower at h
  dsimp only at h
  split at h
  · rename_i hc
    right
    obtain ⟨h1, h2⟩ := hc
    have hvalid : (c.toNat + 32).isValidChar := by
      left
      unfold Char.toNat at h1 h2 ⊢
      omega
    rw [Char.ofNat, dif_pos hvalid] at h
    have h9 := congrArg Char.toNat h
    simp [Char.ofNatAux, Char.toNat, UInt32.toNat, BitVec.toNat_ofNatLt] at h9
    have hbv : c.val.toBitVec = ('A' : Char).val.toBitVec := by
      apply BitVec.eq_of_toNat_eq
      simpa using h9
    exact Char.ext (congrArg UInt32.mk hbv)
  · exact Or.inl h

/-- A character whose lowercasing is `s` is `s` or `S`. -/
theorem toLower_eq_s {c : Char} (h : c.toLower = 's') : c = 's' ∨ c = 'S' := by
  unfold Char.toLower at h
  dsimp only at h
  split at h
  · rename_i hc
    right
    obtain ⟨h1, h2⟩ := hc
    have hvalid : (c.toNat + 32).isValidChar := by
      left
      unfold Char.toNat at h1 h2 ⊢
      omega
    rw [Char.ofNat, dif_pos hvalid] at h
    have h9 := congrArg Char.toNat h
    simp [Char.ofNatAux, Char.toNat, UInt32.toNat, BitVec.toNat_ofNatLt] at h9
    have hbv : c.val.toBitVec = ('S' : Char).val.toBitVec := by
      apply BitVec.eq_of_toNat_eq
      simpa using h9
    exact Char.ext (congrArg UInt32.mk hbv)
  · exact Or.inl h

/-- A successful case-insensitive match splits the input at the pattern
length, the consumed prefix lowercasing to the pattern. -/
theorem matchCI_eq :
    ∀ (pat s r : Str), matchCI pat s = some r →
      ∃ pre, s = pre ++ r ∧ pre.map Char.toLower = pat := by
  intro pat
  induction pat with
  | nil =>
    intro s r h
    simp only [matchCI, Option.some.injEq] at h
    exact ⟨[], by simp [h], rfl⟩
  | cons p ps ih =>
    intro s r h
    cases s with
    | nil => simp [matchCI] at h
    | cons c cs =>
      unfold matchCI at h
      split at h
      · obtain ⟨pre, hpre, hmap⟩ := ih cs r h
        rename_i hc
        exact ⟨c :: pre, by simp [hpre], by simp [hmap, hc]⟩
      · simp at h

/-- Every match reported by `reFind` comes from a successful run of the
matcher. -/
theorem reFind_mem (tm : Bool → Str → Option (Str × Str)) :
    ∀ (fuel : Nat) (pw : Bool) (s : Str) (p : Str × Str),
      p ∈ reFind tm fuel pw s → ∃ pw' s', tm pw' s' = some p := by
  intro fuel
  induction fuel with
  | zero => intro pw s p hp; simp [reFind] at hp
  | succ f ih =>
    intro pw s p hp
    cases s with
    | nil => simp [reFind] at hp
    | cons c rest =>
      unfold reFind at hp
      cases htm : tm pw (c :: rest) with
      | some q =>
        obtain ⟨t, r⟩ := q
        rw [htm] at hp
        simp only [List.mem_cons] at hp
        rcases hp with rfl | hp
        · exact ⟨pw, c :: rest, htm⟩
        · exact ih _ _ _ hp
      | none =>
        rw [htm] at hp
        exact ih _ _ _ hp

/-- `splitWsAux` on an all-nonspace input yields the single pending field. -/
theorem splitWsAux_nonspace :
    ∀ (y : Str), (∀ c ∈ y, pySpace c = false) → ∀ cur : Str,
      SQLTableParser.splitWsAux cur y =
        if cur.reverse ++ y = [] then [] else [cur.reverse ++ y] := by
  intro y
  induction y with
  | nil =>
    intro _ cur
    simp [SQLTableParser.splitWsAux, List.isEmpty_iff]
  | cons c rest ih =>
    intro hall cur
    have hc : pySpace c = false := hall c (by simp)
    unfold SQLTableParser.splitWsAux
    rw [hc]
    simp only [Bool.false_eq_true, if_false]
    rw [ih (fun d hd => hall d (by simp [hd])) (c :: cur)]
    simp

/-- The last whitespace-delimited part of `pre ++ sp :: y` is `y`, when
`sp` is whitespace and `y` is a nonempty all-nonspace run. -/
theorem splitWs_last_append (sp : Char) (hsp : pySpace sp = true) (y : Str)
    (hy : y ≠ []) (hall : ∀ c ∈ y, pySpace c = false) :
    ∀ (pre : Str) (cur : Str),
      (SQLTableParser.splitWsAux cur (pre ++ sp :: y)).getLast? = some y := by
  have hbase : (SQLTableParser.splitWsAux [] y).getLast? = some y := by
    rw [splitWsAux_nonspace y hall []]
    simp [hy]
  intro pre
  induction pre with
  | nil =>
    intro cur
    unfold SQLTableParser.splitWsAux
    simp only [List.nil_append]
    rw [hsp]
    simp only [if_true]
    split
    · exact hbase
    · rw [List.getLast?_cons, hbase]
      rfl
  | cons c pre' ih =>
    intro cur
    unfold SQLTableParser.splitWsAux
    simp only [List.cons_append]
    cases hc : pySpace c with
    | true =>
      simp only [if_true]
      split
      · exact ih []
      · rw [List.getLast?_cons, ih []]
        rfl
    | false =>
      simp only [Bool.false_eq_true, if_false]
      exact ih (c :: cur)

/-- Every match of the `'cte'` pattern ends in a whitespace character
followed by a two-character case variant of `AS`. -/
theorem tryCte_shape {pw : Bool} {s t r : Str}
    (h : SQLTableParser.tryCte pw s = some (t, r)) :
    ∃ pre sp c1 c2, t = pre ++ sp :: [c1, c2] ∧ pySpace sp = true ∧
      c1.toLower = 'a' ∧ c2.toLower = 's' := by
  unfold SQLTableParser.tryCte at h
  split at h
  · simp at h
  · split at h
    · simp at h
    · rename_i t1r1 t1 r1 heq
      dsimp only at h
      split at h
      · simp at h
      · split at h
        · simp at h
        · split at h
          · simp at h
          · rename_i hws hws2 r4 hma
            simp only [Option.some.injEq, Prod.mk.injEq] at h
            obtain ⟨ht, _⟩ := h
            obtain ⟨pre2, hr3, hmap⟩ := matchCI_eq _ _ _ hma
            cases pre2 with
            | nil => simp at hmap
            | cons c1 rest2 =>
              cases rest2 with
              | nil => simp at hmap
              | cons c2 rest3 =>
                cases rest3 with
                | cons d l => simp at hmap
                | nil =>
                  simp only [List.map_cons, List.map_nil, List.cons.injEq,
                    and_true] at hmap
                  obtain ⟨hc1, hc2⟩ := hmap
                  have htk : (List.dropWhile pySpace
                      (List.dropWhile wordChar r1)).take 2 = [c1, c2] := by
                    rw [hr3]
                    exact List.take_left' rfl
                  set ws2 := List.takeWhile pySpace (List.dropWhile wordChar r1) with hws2d
                  have hne : ws2 ≠ [] := by
                    intro hcon
                    simp [hcon] at hws
                  refine ⟨t1 ++ List.takeWhile wordChar r1 ++ ws2.dropLast,
                    ws2.getLast hne, c1, c2, ?_, ?_, hc1, hc2⟩
                  · rw [← ht, htk]
                    have h5 : ws2.dropLast ++ [ws2.getLast hne] = ws2 :=
                      List.dropLast_append_getLast hne
                    conv_lhs => rw [← h5]
                    simp
                  · have hsub : ∀ x ∈ ws2, pySpace x = true := by
                      intro x hx
                      rw [hws2d] at hx
                      exact List.mem_takeWhile_imp hx
                    exact hsub _ (List.getLast_mem hne)

/-- Folding `tableAcc` over matches that all get rejected leaves the
accumulator unchanged. -/
theorem foldl_tableAcc_id (L : List (Str × Str))
    (h : ∀ p ∈ L, ∀ acc : Finset Str, SQLTableParser.tableAcc acc p.1 = acc) :
    ∀ acc, L.foldl (fun acc p => SQLTableParser.tableAcc acc p.1) acc = acc := by
  induction L with
  | nil => intro acc; rfl
  | cons p L ih =>
    intro acc
    simp only [List.foldl_cons]
    rw [h p (by simp) acc]
    exact ih (fun q hq => h q (by simp [hq])) acc

/-- The `'cte'` pattern contributes no table names: the extracted token is
always a case variant of the keyword `AS`, which fails validation. -/
theorem extract_cte_pattern_empty (s : Str) :
    SQLTableParser.extract_tables_from_pattern SQLTableParser.tryCte s = ∅ := by
  unfold SQLTableParser.extract_tables_from_pattern
  apply foldl_tableAcc_id
  intro p hp acc
  obtain ⟨pw', s', hps⟩ := reFind_mem _ _ _ _ _ hp
  obtain ⟨t, r⟩ := p
  obtain ⟨pre, sp, c1, c2, ht, hsp, hc1, hc2⟩ := tryCte_shape hps
  have hns : ∀ c ∈ [c1, c2], pySpace c = false := by
    intro c hc
    simp only [List.mem_cons, List.not_mem_nil, or_false] at hc
    rcases hc with rfl | rfl
    · rcases toLower_eq_a hc1 with rfl | rfl <;> decide
    · rcases toLower_eq_s hc2 with rfl | rfl <;> decide
  have hlast : (SQLTableParser.splitWs (t : Str)).getLast? = some [c1, c2] := by
    rw [ht]
    exact splitWs_last_append sp hsp [c1, c2] (by simp) hns pre []
  unfold SQLTableParser.tableAcc
  rw [hlast]
  simp only
  rcases toLower_eq_a hc1 with rfl | rfl <;>
    rcases toLower_eq_s hc2 with rfl | rfl
  · have hv : SQLTableParser.is_valid_table_name
        (SQLTableParser.clean_table_name ['a', 's']) = false := by decide
    simp [hv]
  · have hv : SQLTableParser.is_valid_table_name
        (SQLTableParser.clean_table_name ['a', 'S']) = false := by decide
    simp [hv]
  · have hv : SQLTableParser.is_valid_table_name
        (SQLTableParser.clean_table_name ['A', 's']) = false := by decide
    simp [hv]
  · have hv : SQLTableParser.is_valid_table_name
        (SQLTableParser.clean_table_name ['A', 'S']) = false := by decide
    simp [hv]

/-- `parseStep` in terms of the optional entry `entryOf`. -/
theorem parseStep_entryOf (s2 : Str) (cte : Finset Str)
    (es : List (String × Finset Str)) (a : Finset Str)
    (q : String × (Bool → Str → Option (Str × Str))) :
    SQLTableParser.parseStep s2 cte (es, a) q =
      match SQLTableParser.entryOf s2 cte q with
      | none => (es, a)
      | some e => (es ++ [e], a ∪ e.2) := by
  by_cases h1 : SQLTableParser.extract_tables_from_pattern q.2 s2 = ∅
  · simp [SQLTableParser.parseStep, SQLTableParser.entryOf, h1]
  · by_cases h2 : SQLTableParser.extract_tables_from_pattern q.2 s2 \ cte = ∅
    · simp [SQLTableParser.parseStep, SQLTableParser.entryOf, h1, h2]
    · simp [SQLTableParser.parseStep, SQLTableParser.entryOf, h1, h2]

/-- `entryOf` produces either nothing or the pattern's post-subtraction
set keyed by the pattern name. -/
theorem entryOf_some (s2 : Str) (cte : Finset Str)
    (q : String × (Bool → Str → Option (Str × Str)))
    (e : String × Finset Str)
    (he : SQLTableParser.entryOf s2 cte q = some e) :
    e.1 = q.1 ∧ e.2 = SQLTableParser.extract_tables_from_pattern q.2 s2 \ cte ∧
      SQLTableParser.extract_tables_from_pattern q.2 s2 ≠ ∅ ∧
      SQLTableParser.extract_tables_from_pattern q.2 s2 \ cte ≠ ∅ := by
  unfold SQLTableParser.entryOf at he
  dsimp only at he
  split at he
  · simp at he
  · split at he
    · simp at he
    · simp only [Option.some.injEq] at he
      rw [← he]
      refine ⟨rfl, rfl, ?_, ?_⟩ <;> assumption

/-- `entryOf` yields nothing exactly when the post-subtraction set is
empty (or the pattern extracted nothing at all). -/
theorem entryOf_none (s2 : Str) (cte : Finset Str)
    (q : String × (Bool → Str → Option (Str × Str)))
    (he : SQLTableParser.entryOf s2 cte q = none) :
    SQLTableParser.extract_tables_from_pattern q.2 s2 \ cte = ∅ ∨
      SQLTableParser.extract_tables_from_pattern q.2 s2 = ∅ := by
  unfold SQLTableParser.entryOf at he
  dsimp only at he
  split at he
  · right; assumption
  · split at he
    · left; assumption
    · simp at he

/-- The entry list accumulated by the pattern fold is the `filterMap` of
`entryOf` over the patterns, appended to the starting entries. -/
theorem fold_entries (s2 : Str) (cte : Finset Str) :
    ∀ (ps : List (String × (Bool → Str → Option (Str × Str))))
      (es : List (String × Finset Str)) (a : Finset Str),
      (ps.foldl (SQLTableParser.parseStep s2 cte) (es, a)).1 =
        es ++ ps.filterMap (SQLTableParser.entryOf s2 cte) := by
  intro ps
  induction ps with
  | nil => intro es a; simp
  | cons p ps ih =>
    intro es a
    rw [List.foldl_cons, List.filterMap_cons, parseStep_entryOf]
    cases he : SQLTableParser.entryOf s2 cte p with
    | none => exact ih es a
    | some e =>
      rw [ih (es ++ [e]) (a ∪ e.2)]
      simp

/-- Membership in the union set accumulated by the pattern fold. -/
theorem fold_all_mem (s2 : Str) (cte : Finset Str) :
    ∀ (ps : List (String × (Bool → Str → Option (Str × Str))))
      (es : List (String × Finset Str)) (a : Finset Str) (x : Str),
      x ∈ (ps.foldl (SQLTableParser.parseStep s2 cte) (es, a)).2 ↔
        x ∈ a ∨ ∃ p ∈ ps,
          x ∈ SQLTableParser.extract_tables_from_pattern p.2 s2 \ cte := by
  intro ps
  induction ps with
  | nil =>
    intro es a x
    simp
  | cons p ps ih =>
    intro es a x
    rw [List.foldl_cons, parseStep_entryOf]
    cases he : SQLTableParser.entryOf s2 cte p with
    | none =>
      rw [ih]
      have hx := entryOf_none s2 cte p he
      constructor
      · rintro (h | ⟨q, hq, hxq⟩)
        · exact Or.inl h
        · exact Or.inr ⟨q, by simp [hq], hxq⟩
      · rintro (h | ⟨q, hq, hxq⟩)
        · exact Or.inl h
        · rcases List.mem_cons.mp hq with rfl | hq
          · rcases hx with hx | hx
            · rw [hx] at hxq
              simp at hxq
            · rw [hx] at hxq
              simp at hxq
          · exact Or.inr ⟨q, hq, hxq⟩
    | some e =>
      obtain ⟨-, he2, -, -⟩ := entryOf_some s2 cte p e he
      rw [ih, he2]
      simp only [Finset.mem_union]
      constructor
      · rintro ((h | h) | ⟨q, hq, hxq⟩)
        · exact Or.inl h
        · exact Or.inr ⟨p, by simp, h⟩
        · exact Or.inr ⟨q, by simp [hq], hxq⟩
      · rintro (h | ⟨q, hq, hxq⟩)
        · exact Or.inl (Or.inl h)
        · rcases List.mem_cons.mp hq with rfl | hq
          · exact Or.inl (Or.inr hxq)
          · exact Or.inr ⟨q, hq, hxq⟩

/-- C9: the mapping returned by `parse_sql` never contains the key `cte`:
that pattern's extracted token is always the literal word `AS`, which
fails keyword validation, so the pattern's set is always empty and its
entry is omitted. -/
theorem parse_sql_no_cte_key (sql : Str) (preprocess : Bool) :
    "cte" ∉ (SQLTableParser.parse_sql sql preprocess).map Prod.fst := by
  intro hmem
  unfold SQLTableParser.parse_sql at hmem
  simp only [List.map_append, List.mem_append] at hmem
  rcases hmem with (hmem | hmem) | hmem
  · rw [fold_entries] at hmem
    simp only [List.nil_append, List.mem_map] at hmem
    obtain ⟨e, he, hk⟩ := hmem
    obtain ⟨q, hq, hqe⟩ := List.mem_filterMap.mp he
    obtain ⟨hk1, -, hne, -⟩ := entryOf_some _ _ _ _ hqe
    have hq1 : q.1 = "cte" := by rw [← hk1]; exact hk
    fin_cases hq <;>
      first
        | exact absurd hq1 (by decide)
        | exact hne (extract_cte_pattern_empty _)
  · simp at hmem
  · split at hmem <;> simp at hmem

/-- Every name kept by the per-match accumulator validates. -/
theorem foldl_tableAcc_valid :
    ∀ (L : List (Str × Str)) (acc : Finset Str),
      (∀ y ∈ acc, SQLTableParser.is_valid_table_name y = true) →
      ∀ x ∈ L.foldl (fun acc p => SQLTableParser.tableAcc acc p.1) acc,
        SQLTableParser.is_valid_table_name x = true := by
  intro L
  induction L with
  | nil => intro acc hacc x hx; exact hacc x hx
  | cons p L ih =>
    intro acc hacc x hx
    refine ih _ ?_ x hx
    intro y hy
    have hy2 : y ∈ SQLTableParser.tableAcc acc p.1 := hy
    unfold SQLTableParser.tableAcc at hy2
    cases hg : (SQLTableParser.splitWs p.1).getLast? with
    | none => rw [hg] at hy2; exact hacc y hy2
    | some tn =>
      rw [hg] at hy2
      dsimp only at hy2
      split at hy2
      · rename_i hvalid
        rcases Finset.mem_insert.mp hy2 with rfl | hy2
        · exact hvalid
        · exact hacc y hy2
      · exact hacc y hy2

/-- Every element of an extracted pattern set validates. -/
theorem mem_extract_valid (tm : Bool → Str → Option (Str × Str)) (s x : Str)
    (hx : x ∈ SQLTableParser.extract_tables_from_pattern tm s) :
    SQLTableParser.is_valid_table_name x = true := by
  unfold SQLTableParser.extract_tables_from_pattern at hx
  exact foldl_tableAcc_valid _ ∅ (by simp) x hx

/-- What `is_valid_table_name` guarantees: the validation key is not a
reserved word (uppercased) and has identifier shape. -/
theorem is_valid_spec (t : Str)
    (h : SQLTableParser.is_valid_table_name t = true) :
    (SQLTableParser.validationKey t).map Char.toUpper ∉ SQLTableParser.sql_keywords ∧
      SQLTableParser.identShape (SQLTableParser.validationKey t) = true := by
  unfold SQLTableParser.is_valid_table_name at h
  split at h
  · simp at h
  · dsimp only at h
    split at h
    · simp at h
    · exact ⟨by assumption, h⟩

/-- Association-list lookup skips a prefix whose keys all differ from the
searched key. -/
theorem lookup_append_of_ne (k : String) :
    ∀ (es rest : List (String × Finset Str)),
      (∀ e ∈ es, e.1 ≠ k) → List.lookup k (es ++ rest) = List.lookup k rest := by
  intro es
  induction es with
  | nil => intro rest _; rfl
  | cons e es ih =>
    intro rest h
    obtain ⟨k1, v1⟩ := e
    have hne : (k == k1) = false := by
      simp only [beq_eq_false_iff_ne, ne_eq]
      exact fun hk => h (k1, v1) (by simp) hk.symm
    rw [List.cons_append, List.lookup_cons, hne]
    exact ih rest fun e' he' => h e' (by simp [he'])

/-- `parse_sql` as an explicit association list: the pattern entries, the
`all_tables` entry, and the optional `cte_tables` entry. -/
theorem parse_sql_eq (sql : Str) (preprocess : Bool) :
    SQLTableParser.parse_sql sql preprocess =
      (SQLTableParser.patternList.filterMap
          (SQLTableParser.entryOf (procText sql preprocess) (cteOf sql preprocess)) ++
        [("all_tables", allOf sql preprocess)]) ++
      (if cteOf sql preprocess = ∅ then []
       else [("cte_tables", cteOf sql preprocess)]) := by
  unfold SQLTableParser.parse_sql allOf cteOf procText
  dsimp only
  rw [fold_entries]
  simp

/-- The keys of the pattern entries are pattern names. -/
theorem entry_keys (s2 : Str) (cte : Finset Str) (e : String × Finset Str)
    (he : e ∈ SQLTableParser.patternList.filterMap (SQLTableParser.entryOf s2 cte)) :
    e.1 ∈ SQLTableParser.patternList.map Prod.fst := by
  obtain ⟨q, hq, hqe⟩ := List.mem_filterMap.mp he
  obtain ⟨hk1, -, -, -⟩ := entryOf_some _ _ _ _ hqe
  rw [hk1]
  exact List.mem_map_of_mem _ hq

/-- A successful `all_tables` lookup returns the fold's union set. -/
theorem lookup_all_tables (sql : Str) (preprocess : Bool) (A : Finset Str)
    (hA : (SQLTableParser.parse_sql sql preprocess).lookup "all_tables" = some A) :
    A = allOf sql preprocess := by
  rw [parse_sql_eq, List.append_assoc, lookup_append_of_ne] at hA
  · rw [List.cons_append, List.lookup_cons] at hA
    simpa using hA.symm
  · intro e he
    have h10 := entry_keys _ _ e he
    have hl : SQLTableParser.patternList.map Prod.fst =
        ["select_from", "join", "insert", "update", "delete", "create", "drop",
         "alter", "truncate", "cte"] := by rfl
    rw [hl] at h10
    simp only [List.mem_cons, List.not_mem_nil, or_false] at h10
    rcases h10 with h | h | h | h | h | h | h | h | h | h <;> rw [h] <;> decide

/-- A successful `cte_tables` lookup returns the extracted CTE set. -/
theorem lookup_cte_tables (sql : Str) (preprocess : Bool) (C : Finset Str)
    (hC : (SQLTableParser.parse_sql sql preprocess).lookup "cte_tables" = some C) :
    C = cteOf sql preprocess := by
  rw [parse_sql_eq, List.append_assoc, lookup_append_of_ne] at hC
  · rw [List.cons_append, List.lookup_cons] at hC
    simp only [show (("cte_tables" : String) == "all_tables") = false by decide] at hC
    split at hC
    · simp at hC
    · simpa [List.lookup] using hC.symm
  · intro e he
    have h10 := entry_keys _ _ e he
    have hl : SQLTableParser.patternList.map Prod.fst =
        ["select_from", "join", "insert", "update", "delete", "create", "drop",
         "alter", "truncate", "cte"] := by rfl
    rw [hl] at h10
    simp only [List.mem_cons, List.not_mem_nil, or_false] at h10
    rcases h10 with h | h | h | h | h | h | h | h | h | h <;> rw [h] <;> decide

/-- C4: for every input, the `all_tables` set is disjoint from whatever
set a `cte_tables` entry holds (when the entry exists), and no element of
`all_tables` has a reserved word as its uppercased validation key or fails
the identifier-shape rule on its validation key.  The `all_tables` entry
itself exists for every input, so the single hypothesis is always
satisfiable. -/
theorem parse_sql_invariants (sql : Str) (preprocess : Bool) (A : Finset Str)
    (hA : (SQLTableParser.parse_sql sql preprocess).lookup "all_tables" = some A) :
    (∀ C, (SQLTableParser.parse_sql sql preprocess).lookup "cte_tables" = some C →
        A ∩ C = ∅) ∧
    ∀ x ∈ A,
      (SQLTableParser.validationKey x).map Char.toUpper ∉ SQLTableParser.sql_keywords ∧
        SQLTableParser.identShape (SQLTableParser.validationKey x) = true := by
  have hA2 := lookup_all_tables sql preprocess A hA
  subst hA2
  constructor
  · intro C hC
    have hC2 := lookup_cte_tables sql preprocess C hC
    subst hC2
    apply Finset.eq_empty_of_forall_not_mem
    intro x hx
    rw [Finset.mem_inter] at hx
    obtain ⟨hxa, hxc⟩ := hx
    unfold allOf at hxa
    rw [fold_all_mem] at hxa
    rcases hxa with h | ⟨q, hq, hxq⟩
    · simp at h
    · exact (Finset.mem_sdiff.mp hxq).2 hxc
  · intro x hxa
    unfold allOf at hxa
    rw [fold_all_mem] at hxa
    rcases hxa with h | ⟨q, hq, hxq⟩
    · simp at h
    · exact is_valid_spec x (mem_extract_valid _ _ _ (Finset.mem_sdiff.mp hxq).1)

/-- Witness for C4 at a CTE-free input (`cte_tables` entry absent) and at
an input with one CTE and one real table. -/
theorem parse_sql_invariants_witness :
    ((∀ C, (SQLTableParser.parse_sql "SELECT * FROM x".data true).lookup
          "cte_tables" = some C → ({"x".data} : Finset Str) ∩ C = ∅) ∧
      ∀ x ∈ ({"x".data} : Finset Str),
        (SQLTableParser.validationKey x).map Char.toUpper ∉ SQLTableParser.sql_keywords ∧
          SQLTableParser.identShape (SQLTableParser.validationKey x) = true) ∧
    ((∀ C, (SQLTableParser.parse_sql
            "WITH a AS (SELECT 1) SELECT * FROM b".data true).lookup
          "cte_tables" = some C → ({"b".data} : Finset Str) ∩ C = ∅) ∧
      ∀ x ∈ ({"b".data} : Finset Str),
        (SQLTableParser.validationKey x).map Char.toUpper ∉ SQLTableParser.sql_keywords ∧
          SQLTableParser.identShape (SQLTableParser.validationKey x) = true) :=
  ⟨parse_sql_invariants "SELECT * FROM x".data true {"x".data} (by decide),
    parse_sql_invariants "WITH a AS (SELECT 1) SELECT * FROM b".data true
      {"b".data} (by decide)⟩

/-- Looking up a pattern's key in the entry list: when the keys are
distinct and the pattern produced an entry, the lookup returns it. -/
theorem lookup_filterMap_pattern (s2 : Str) (cte : Finset Str) :
    ∀ (ps : List (String × (Bool → Str → Option (Str × Str)))),
      (ps.map Prod.fst).Nodup →
      ∀ (kind : String) (f : Bool → Str → Option (Str × Str)) (v : Finset Str),
        (kind, f) ∈ ps →
        SQLTableParser.entryOf s2 cte (kind, f) = some (kind, v) →
        List.lookup kind (ps.filterMap (SQLTableParser.entryOf s2 cte)) = some v := by
  intro ps
  induction ps with
  | nil => intro _ kind f v h; simp at h
  | cons p ps ih =>
    intro hnd kind f v hmem hv
    rw [List.filterMap_cons]
    rcases List.mem_cons.mp hmem with heq | hmem2
    · rw [← heq, hv]
      simp [List.lookup]
    · have hk : kind ∈ ps.map Prod.fst := by
        have := List.mem_map_of_mem Prod.fst hmem2
        simpa using this
      rw [List.map_cons, List.nodup_cons] at hnd
      have hne : p.1 ≠ kind := fun hcon => hnd.1 (hcon ▸ hk)
      cases he : SQLTableParser.entryOf s2 cte p with
      | none => exact ih hnd.2 kind f v hmem2 hv
      | some e =>
        obtain ⟨hk1, -, -, -⟩ := entryOf_some _ _ _ _ he
        rw [List.lookup_cons]
        have hbeq : (kind == e.1) = false := by
          simp only [beq_eq_false_iff_ne, ne_eq, hk1]
          exact fun hcon => hne hcon.symm
        rw [hbeq]
        exact ih hnd.2 kind f v hmem2 hv

/-- The pattern names are pairwise distinct. -/
theorem patternList_keys_nodup :
    (SQLTableParser.patternList.map Prod.fst).Nodup := by
  have hl : SQLTableParser.patternList.map Prod.fst =
      ["select_from", "join", "insert", "update", "delete", "create", "drop",
       "alter", "truncate", "cte"] := by rfl
  rw [hl]
  decide

/-- `parse_sql` always has an `all_tables` entry holding the fold union. -/
theorem lookup_all_tables_eq (sql : Str) (preprocess : Bool) :
    (SQLTableParser.parse_sql sql preprocess).lookup "all_tables"
      = some (allOf sql preprocess) := by
  rw [parse_sql_eq, List.append_assoc, lookup_append_of_ne]
  · simp [List.lookup]
  · intro e he
    have h10 := entry_keys _ _ e he
    have hl : SQLTableParser.patternList.map Prod.fst =
        ["select_from", "join", "insert", "update", "delete", "create", "drop",
         "alter", "truncate", "cte"] := by rfl
    rw [hl] at h10
    simp only [List.mem_cons, List.not_mem_nil, or_false] at h10
    rcases h10 with h | h | h | h | h | h | h | h | h | h <;> rw [h] <;> decide

/-- C7: CTE subtraction is by exact, case-sensitive string equality: a
validated name produced by some statement-kind pattern that differs only
in letter case from an extracted CTE name (and equals no CTE name
exactly) is retained in that statement kind's entry and in `all_tables`. -/
theorem cte_subtraction_case_sensitive (sql : Str) (preprocess : Bool)
    (kind : String) (f : Bool → Str → Option (Str × Str))
    (hkf : (kind, f) ∈ SQLTableParser.patternList)
    (name : Str)
    (hname : name ∈ SQLTableParser.extract_tables_from_pattern f (procText sql preprocess))
    (hcase : ∃ c ∈ cteOf sql preprocess, c.map Char.toLower = name.map Char.toLower)
    (hne : ∀ c ∈ cteOf sql preprocess, c ≠ name) :
    ∃ S, (SQLTableParser.parse_sql sql preprocess).lookup kind = some S ∧ name ∈ S ∧
      name ∈ allOf sql preprocess ∧
      (SQLTableParser.parse_sql sql preprocess).lookup "all_tables"
        = some (allOf sql preprocess) := by
  have hnotin : name ∉ cteOf sql preprocess := fun h => hne name h rfl
  have hsd : name ∈ SQLTableParser.extract_tables_from_pattern f (procText sql preprocess)
      \ cteOf sql preprocess := Finset.mem_sdiff.mpr ⟨hname, hnotin⟩
  have hentry : SQLTableParser.entryOf (procText sql preprocess) (cteOf sql preprocess)
      (kind, f) = some (kind,
        SQLTableParser.extract_tables_from_pattern f (procText sql preprocess)
          \ cteOf sql preprocess) := by
    unfold SQLTableParser.entryOf
    dsimp only
    rw [if_neg (Finset.ne_empty_of_mem hname), if_neg (Finset.ne_empty_of_mem hsd)]
  refine ⟨SQLTableParser.extract_tables_from_pattern f (procText sql preprocess)
      \ cteOf sql preprocess, ?_, hsd, ?_, lookup_all_tables_eq sql preprocess⟩
  · rw [parse_sql_eq, List.append_assoc, List.lookup_append,
      lookup_filterMap_pattern (procText sql preprocess) (cteOf sql preprocess)
        SQLTableParser.patternList patternList_keys_nodup kind f _ hkf hentry]
    rfl
  · unfold allOf
    rw [fold_all_mem]
    exact Or.inr ⟨(kind, f), hkf, hsd⟩

/-- Witness for C7: the CTE `Foo` and the table reference `foo` differ
only in case, so `foo` is retained. -/
theorem cte_subtraction_case_sensitive_witness :
    ∃ S, (SQLTableParser.parse_sql "WITH Foo AS (SELECT 1) SELECT * FROM foo".data
        true).lookup "select_from" = some S ∧ "foo".data ∈ S ∧
      "foo".data ∈ allOf "WITH Foo AS (SELECT 1) SELECT * FROM foo".data true ∧
      (SQLTableParser.parse_sql "WITH Foo AS (SELECT 1) SELECT * FROM foo".data
        true).lookup "all_tables"
        = some (allOf "WITH Foo AS (SELECT 1) SELECT * FROM foo".data true) :=
  cte_subtraction_case_sensitive _ true "select_from"
    (SQLTableParser.tryPat [["from".data]] []) (List.mem_cons_self _ _)
    "foo".data (by decide) ⟨"Foo".data, by decide, by decide⟩ (by decide)

/-- A keyword token consumes a prefix of the input. -/
theorem kwTok_eq {w s t r : Str} (h : SQLTableParser.kwTok w s = some (t, r)) :
    s = t ++ r := by
  unfold SQLTableParser.kwTok at h
  cases hm : matchCI w s with
  | none => rw [hm] at h; simp at h
  | some r1 =>
    rw [hm] at h
    dsimp only at h
    split at h
    · simp at h
    · simp only [Option.some.injEq, Prod.mk.injEq] at h
      obtain ⟨ht, hr⟩ := h
      obtain ⟨pre, hpre, hmap⟩ := matchCI_eq _ _ _ hm
      have hlen : pre.length = w.length := by rw [← hmap]; simp
      have htake : s.take w.length = pre := by rw [hpre, ← hlen, List.take_left]
      rw [← ht, ← hr, htake, hpre]
      simp [List.append_assoc, List.takeWhile_append_dropWhile]

/-- A keyword sequence consumes a prefix of the input. -/
theorem kwSeq_eq :
    ∀ (ws : List Str) (s t r : Str),
      SQLTableParser.kwSeq ws s = some (t, r) → s = t ++ r := by
  intro ws
  induction ws with
  | nil =>
    intro s t r h
    simp only [SQLTableParser.kwSeq, Option.some.injEq, Prod.mk.injEq] at h
    rw [← h.1, ← h.2]
    rfl
  | cons w ws ih =>
    intro s t r h
    unfold SQLTableParser.kwSeq at h
    cases h1 : SQLTableParser.kwTok w s with
    | none => rw [h1] at h; simp at h
    | some p1 =>
      obtain ⟨t1, r1⟩ := p1
      rw [h1] at h
      dsimp only at h
      cases h2 : SQLTableParser.kwSeq ws r1 with
      | none => rw [h2] at h; simp at h
      | some p2 =>
        obtain ⟨t2, r2⟩ := p2
        rw [h2] at h
        simp only [Option.some.injEq, Prod.mk.injEq] at h
        rw [← h.1, ← h.2, kwTok_eq h1, ih r1 t2 r2 h2]
        simp

/-- A table token consumes a prefix of the input. -/
theorem tpTok_eq :
    ∀ {s t r : Str}, SQLTableParser.tpTok s = some (t, r) → s = t ++ r := by
  intro s t r h
  unfold SQLTableParser.tpTok at h
  split at h
  · simp at h
  · rename_i rest
    dsimp only at h
    split at h
    · simp at h
    · split at h
      · rename_i r2 hdrop
        simp only [Option.some.injEq, Prod.mk.injEq] at h
        rw [← h.1, ← h.2]
        have : rest = rest.takeWhile (· ≠ '`') ++ rest.dropWhile (· ≠ '`') :=
          (List.takeWhile_append_dropWhile _ _).symm
        rw [show ('`' :: rest : Str) = '`' :: rest from rfl]
        conv_lhs => rw [this, hdrop]
        simp
      · simp at h
  · rename_i rest
    dsimp only at h
    split at h
    · simp at h
    · split at h
      · rename_i r2 hdrop
        simp only [Option.some.injEq, Prod.mk.injEq] at h
        rw [← h.1, ← h.2]
        have : rest = rest.takeWhile (· ≠ '"') ++ rest.dropWhile (· ≠ '"') :=
          (List.takeWhile_append_dropWhile _ _).symm
        conv_lhs => rw [this, hdrop]
        simp
      · simp at h
  · rename_i c rest hne1 hne2
    split at h
    · dsimp only at h
      split at h
      · rename_i r2 hdrop
        split at h
        · simp only [Option.some.injEq, Prod.mk.injEq] at h
          rw [← h.1, ← h.2]
          have : rest = rest.takeWhile wordChar ++ rest.dropWhile wordChar :=
            (List.takeWhile_append_dropWhile _ _).symm
          conv_lhs => rw [this, hdrop]
          rw [hdrop]
          simp
        · simp only [Option.some.injEq, Prod.mk.injEq] at h
          rw [← h.1, ← h.2]
          have h3 : rest = rest.takeWhile wordChar ++ rest.dropWhile wordChar :=
            (List.takeWhile_append_dropWhile _ _).symm
          have h4 : r2 = r2.takeWhile wordChar ++ r2.dropWhile wordChar :=
            (List.takeWhile_append_dropWhile _ _).symm
          conv_lhs => rw [h3, hdrop, h4]
          simp
      · simp only [Option.some.injEq, Prod.mk.injEq] at h
        rw [← h.1, ← h.2]
        have : rest = rest.takeWhile wordChar ++ rest.dropWhile wordChar :=
          (List.takeWhile_append_dropWhile _ _).symm
        conv_lhs => rw [this]
        rename_i hr1
        simp
    · simp at h

/-- A full keyword-pattern alternative consumes a prefix of the input. -/
theorem tryAlt_eq {alt opt : List Str} {s t r : Str}
    (h : SQLTableParser.tryAlt alt opt s = some (t, r)) : s = t ++ r := by
  unfold SQLTableParser.tryAlt at h
  cases h1 : SQLTableParser.kwSeq alt s with
  | none => rw [h1] at h; simp at h
  | some p1 =>
    obtain ⟨t1, r1⟩ := p1
    rw [h1] at h
    dsimp only at h
    have hs1 := kwSeq_eq alt s t1 r1 h1
    split at h
    · cases h2 : SQLTableParser.tpTok r1 with
      | none => rw [h2] at h; simp at h
      | some p2 =>
        obtain ⟨t2, r2⟩ := p2
        rw [h2] at h
        simp only [Option.map_some, Option.some.injEq, Prod.mk.injEq] at h
        rw [← h.1, ← h.2, hs1, tpTok_eq h2]
        simp
    · rename_i o1 os
      cases h2 : SQLTableParser.kwSeq (o1 :: os) r1 with
      | none =>
        rw [h2] at h
        cases h3 : SQLTableParser.tpTok r1 with
        | none => rw [h3] at h; simp at h
        | some p3 =>
          obtain ⟨t3, r3⟩ := p3
          rw [h3] at h
          simp only [Option.map_some, Option.some.injEq, Prod.mk.injEq] at h
          rw [← h.1, ← h.2, hs1, tpTok_eq h3]
          simp
      | some p2 =>
        obtain ⟨t2, r2⟩ := p2
        rw [h2] at h
        dsimp only at h
        cases h3 : SQLTableParser.tpTok r2 with
        | some p3 =>
          obtain ⟨t3, r3⟩ := p3
          rw [h3] at h
          simp only [Option.some.injEq, Prod.mk.injEq] at h
          rw [← h.1, ← h.2, hs1, kwSeq_eq (o1 :: os) r1 t2 r2 h2, tpTok_eq h3]
          simp
        | none =>
          rw [h3] at h
          cases h4 : SQLTableParser.tpTok r1 with
          | none => rw [h4] at h; simp at h
          | some p4 =>
            obtain ⟨t4, r4⟩ := p4
            rw [h4] at h
            simp only [Option.map_some, Option.some.injEq, Prod.mk.injEq] at h
            rw [← h.1, ← h.2, hs1, tpTok_eq h4]
            simp

/-- Keyword alternation consumes a prefix of the input. -/
theorem tryAlts_eq :
    ∀ (alts : List (List Str)) (opt : List Str) (s t r : Str),
      SQLTableParser.tryAlts alts opt s = some (t, r) → s = t ++ r := by
  intro alts
  induction alts with
  | nil =>
    intro opt s t r h
    simp [SQLTableParser.tryAlts] at h
  | cons a alts ih =>
    intro opt s t r h
    unfold SQLTableParser.tryAlts at h
    cases h1 : SQLTableParser.tryAlt a opt s with
    | some p =>
      obtain ⟨t1, r1⟩ := p
      rw [h1] at h
      simp only [Option.some.injEq, Prod.mk.injEq] at h
      rw [← h.1, ← h.2]
      exact tryAlt_eq h1
    | none =>
      rw [h1] at h
      exact ih opt s t r h

/-- A statement-kind matcher consumes a prefix of the input. -/
theorem tryPat_eq {alts : List (List Str)} {opt : List Str} {pw : Bool} {s t r : Str}
    (h : SQLTableParser.tryPat alts opt pw s = some (t, r)) : s = t ++ r := by
  unfold SQLTableParser.tryPat at h
  split at h
  · simp at h
  · exact tryAlts_eq alts opt s t r h

/-- The `'cte'` pattern matcher consumes a prefix of the input. -/
theorem tryCte_eq {pw : Bool} {s t r : Str}
    (h : SQLTableParser.tryCte pw s = some (t, r)) : s = t ++ r := by
  unfold SQLTableParser.tryCte at h
  split at h
  · simp at h
  · split at h
    · simp at h
    · rename_i p1 t1 r1 h1
      dsimp only at h
      split at h
      · simp at h
      · split at h
        · simp at h
        · split at h
          · simp at h
          · rename_i hw hws2 r4 hma
            simp only [Option.some.injEq, Prod.mk.injEq] at h
            obtain ⟨pre2, hr3, hmap⟩ := matchCI_eq _ _ _ hma
            have hlen : pre2.length = 2 := by
              have := congrArg List.length hmap
              simpa using this
            have htk : (List.dropWhile pySpace (List.dropWhile wordChar r1)).take 2
                = pre2 := by
              rw [hr3, ← hlen, List.take_left]
            rw [← h.1, ← h.2, kwTok_eq h1, htk]
            conv_lhs => rw [show r1 = r1.takeWhile wordChar ++ r1.dropWhile wordChar
              from (List.takeWhile_append_dropWhile _ _).symm]
            conv_lhs =>
              rw [show r1.dropWhile wordChar =
                    (r1.dropWhile wordChar).takeWhile pySpace ++
                      (r1.dropWhile wordChar).dropWhile pySpace
                  from (List.takeWhile_append_dropWhile _ _).symm]
            rw [hr3]
            simp

/-- The `WITH` matcher consumes a prefix of the input. -/
theorem tryWith_eq {pw : Bool} {s t r : Str}
    (h : tryWith pw s = some (t, r)) : s = t ++ r := by
  unfold tryWith at h
  split at h
  · simp at h
  · cases h1 : matchCI ['w', 'i', 't', 'h'] s with
    | none => rw [h1] at h; simp at h
    | some r1 =>
      rw [h1] at h
      dsimp only at h
      obtain ⟨pre, hpre, hmap⟩ := matchCI_eq _ _ _ h1
      have hlen : pre.length = 4 := by
        have := congrArg List.length hmap
        simpa using this
      have htake : s.take 4 = pre := by rw [hpre, ← hlen, List.take_left]
      split at h
      · simp at h
      · cases h2 : matchCI ['r', 'e', 'c', 'u', 'r', 's', 'i', 'v', 'e']
            (r1.dropWhile pySpace) with
        | none =>
          rw [h2] at h
          simp only [Option.some.injEq, Prod.mk.injEq] at h
          rw [← h.1, ← h.2, htake, hpre]
          conv_lhs => rw [show r1 = r1.takeWhile pySpace ++ r1.dropWhile pySpace
            from (List.takeWhile_append_dropWhile _ _).symm]
          simp
        | some r3 =>
          rw [h2] at h
          dsimp only at h
          obtain ⟨pre2, hpre2, hmap2⟩ := matchCI_eq _ _ _ h2
          have hlen2 : pre2.length = 9 := by
            have := congrArg List.length hmap2
            simpa using this
          have htake2 : (r1.dropWhile pySpace).take 9 = pre2 := by
            rw [hpre2, ← hlen2, List.take_left]
          split at h
          · simp only [Option.some.injEq, Prod.mk.injEq] at h
            rw [← h.1, ← h.2, htake, hpre]
            conv_lhs => rw [show r1 = r1.takeWhile pySpace ++ r1.dropWhile pySpace
              from (List.takeWhile_append_dropWhile _ _).symm]
            simp
          · simp only [Option.some.injEq, Prod.mk.injEq] at h
            rw [← h.1, ← h.2, htake, hpre, htake2]
            conv_lhs => rw [show r1 = r1.takeWhile pySpace ++ r1.dropWhile pySpace
              from (List.takeWhile_append_dropWhile _ _).symm]
            conv_lhs => rw [hpre2]
            conv_lhs => rw [show r3 = r3.takeWhile pySpace ++ r3.dropWhile pySpace
              from (List.takeWhile_append_dropWhile _ _).symm]
            simp

/-- Every match found by `reFind` is an infix of the scanned text, and the
suffix after it is a suffix of the scanned text. -/
theorem reFind_subOf (tm : Bool → Str → Option (Str × Str))
    (hdec : ∀ pw s t r, tm pw s = some (t, r) → s = t ++ r) :
    ∀ (fuel : Nat) (pw : Bool) (s : Str) (p : Str × Str),
      p ∈ reFind tm fuel pw s → p.1 <:+: s ∧ p.2 <:+ s := by
  intro fuel
  induction fuel with
  | zero => intro pw s p hp; simp [reFind] at hp
  | succ f ih =>
    intro pw s p hp
    cases s with
    | nil => simp [reFind] at hp
    | cons c rest =>
      unfold reFind at hp
      cases htm : tm pw (c :: rest) with
      | some q =>
        obtain ⟨t, r⟩ := q
        rw [htm] at hp
        simp only [List.mem_cons] at hp
        have hcr : (c :: rest : Str) = t ++ r := hdec _ _ _ _ htm
        rcases hp with rfl | hp
        · constructor
          · exact ⟨[], r, by simp [hcr]⟩
          · exact ⟨t, hcr.symm⟩
        · obtain ⟨h1, h2⟩ := ih _ _ _ hp
          have hrinf : r <:+ (c :: rest : Str) := ⟨t, hcr.symm⟩
          exact ⟨h1.trans hrinf.isInfix, h2.trans hrinf⟩
      | none =>
        rw [htm] at hp
        obtain ⟨h1, h2⟩ := ih _ _ _ hp
        exact ⟨List.infix_cons h1, h2.trans (List.suffix_cons c rest)⟩

/-- The value reported by `getLast?` is an element of the list. -/
theorem mem_of_getLast_opt {α : Type} {l : List α} {a : α}
    (h : l.getLast? = some a) : a ∈ l := by
  induction l with
  | nil => simp at h
  | cons c l ih =>
    rw [List.getLast?_cons] at h
    simp only [Option.some.injEq] at h
    cases hl : l.getLast? with
    | none => rw [hl] at h; simp at h; simp [h]
    | some b =>
      rw [hl] at h
      simp only [Option.getD_some] at h
      subst h
      exact List.mem_cons_of_mem _ (ih hl)

/-- Every field produced by `splitWsAux` is an infix of the pending
accumulator plus the remaining input. -/
theorem mem_splitWsAux_subOf :
    ∀ (s cur part : Str), part ∈ SQLTableParser.splitWsAux cur s →
      part <:+: (cur.reverse ++ s) := by
  intro s
  induction s with
  | nil =>
    intro cur part hp
    unfold SQLTableParser.splitWsAux at hp
    split at hp
    · simp at hp
    · simp only [List.mem_singleton] at hp
      rw [hp]
      simp
  | cons c rest ih =>
    intro cur part hp
    unfold SQLTableParser.splitWsAux at hp
    split at hp
    · split at hp
      · have h1 := ih [] part hp
        simp only [List.reverse_nil, List.nil_append] at h1
        refine h1.trans (List.IsSuffix.isInfix ⟨cur.reverse ++ [c], ?_⟩)
        simp
      · rcases List.mem_cons.mp hp with rfl | hp2
        · exact (List.prefix_append _ _).isInfix
        · have h1 := ih [] part hp2
          simp only [List.reverse_nil, List.nil_append] at h1
          refine h1.trans (List.IsSuffix.isInfix ⟨cur.reverse ++ [c], ?_⟩)
          simp
    · have h1 := ih (c :: cur) part hp
      simpa using h1

/-- Both strips of `pyStripWith` keep an infix of the input. -/
theorem pyStripWith_subOf (p : Char → Bool) (l : Str) :
    SQLTableParser.pyStripWith p l <:+: l := by
  unfold SQLTableParser.pyStripWith
  have h1 : l.dropWhile p <:+ l := List.dropWhile_suffix p
  obtain ⟨pre, hpre⟩ : (l.dropWhile p).reverse.dropWhile p <:+ (l.dropWhile p).reverse :=
    List.dropWhile_suffix p
  have h2 : ((l.dropWhile p).reverse.dropWhile p).reverse <+: l.dropWhile p := by
    refine ⟨pre.reverse, ?_⟩
    rw [← List.reverse_append, hpre, List.reverse_reverse]
  exact h2.isInfix.trans h1.isInfix

/-- `clean_table_name` keeps an infix of its argument. -/
theorem clean_table_name_subOf (t : Str) :
    SQLTableParser.clean_table_name t <:+: t :=
  (pyStripWith_subOf _ _).trans (pyStripWith_subOf _ _)

/-- Every name accumulated by a `tableAcc` fold comes from the
accumulator or is an infix of some matched text in the list. -/
theorem foldl_tableAcc_subOf :
    ∀ (L : List (Str × Str)) (acc : Finset Str) (x : Str),
      x ∈ L.foldl (fun acc p => SQLTableParser.tableAcc acc p.1) acc →
        x ∈ acc ∨ ∃ p ∈ L, x <:+: p.1 := by
  intro L
  induction L with
  | nil => intro acc x hx; exact Or.inl hx
  | cons p L ih =>
    intro acc x hx
    rcases ih _ x hx with hx2 | ⟨q, hq, hinf⟩
    · have hx3 : x ∈ SQLTableParser.tableAcc acc p.1 := hx2
      unfold SQLTableParser.tableAcc at hx3
      cases hg : (SQLTableParser.splitWs p.1).getLast? with
      | none => rw [hg] at hx3; exact Or.inl hx3
      | some tn =>
        rw [hg] at hx3
        dsimp only at hx3
        split at hx3
        · rcases Finset.mem_insert.mp hx3 with rfl | hx4
          · refine Or.inr ⟨p, by simp, ?_⟩
            have htn : tn <:+: p.1 := by
              have := mem_splitWsAux_subOf p.1 [] tn (mem_of_getLast_opt hg)
              simpa [SQLTableParser.splitWs] using this
            exact (clean_table_name_subOf tn).trans htn
          · exact Or.inl hx4
        · exact Or.inl hx3
    · exact Or.inr ⟨q, by simp [hq], hinf⟩

/-- Every element of a pattern's extracted set is an infix of the scanned
text (for matchers that consume a prefix). -/
theorem mem_extract_subOf (tm : Bool → Str → Option (Str × Str))
    (hdec : ∀ pw s t r, tm pw s = some (t, r) → s = t ++ r)
    (s x : Str) (hx : x ∈ SQLTableParser.extract_tables_from_pattern tm s) :
    x <:+: s := by
  unfold SQLTableParser.extract_tables_from_pattern at hx
  rcases foldl_tableAcc_subOf _ _ _ hx with h | ⟨p, hp, hinf⟩
  · simp at h
  · exact hinf.trans (reFind_subOf tm hdec _ _ _ _ hp).1

/-- The identifier returned by the name matcher is an infix of the input,
and the remaining suffix is a suffix of the input. -/
theorem nameASparen_parts {s n r : Str} (h : nameASparen s = some (n, r)) :
    n <:+: s ∧ r <:+ s := by
  unfold nameASparen at h
  split at h
  · simp at h
  · rename_i c rest
    split at h
    · dsimp only at h
      split at h
      · simp at h
      · split at h
        · rename_i a s2 r2 hdrop
          split at h
          · split at h
            · rename_i r3 hdrop2
              simp only [Option.some.injEq, Prod.mk.injEq] at h
              constructor
              · rw [← h.1]
                exact (List.cons_prefix_cons.mpr
                  ⟨rfl, List.takeWhile_prefix wordChar⟩).isInfix
              · rw [← h.2]
                have s1 : r3 <:+ r2.dropWhile pySpace := by
                  rw [hdrop2]; exact List.suffix_cons _ _
                have s2s : r2 <:+ (rest.dropWhile wordChar).dropWhile pySpace := by
                  rw [hdrop]
                  exact (List.suffix_cons _ _).trans (List.suffix_cons _ _)
                have s3 : r3 <:+ rest :=
                  ((s1.trans (List.dropWhile_suffix pySpace)).trans s2s).trans
                    ((List.dropWhile_suffix pySpace).trans
                      (List.dropWhile_suffix wordChar))
                exact s3.trans (List.suffix_cons c rest)
            · simp at h
          · simp at h
        · simp at h
    · simp at h

/-- The stepping equation of `skipParens` on a non-parenthesis head. -/
theorem skipParens_cons_other {c : Char} (h1 : c ≠ '(') (h2 : c ≠ ')')
    (rest : Str) (m : Nat) :
    skipParens (c :: rest) (m + 1) = skipParens rest (m + 1) := by
  conv_lhs => unfold skipParens
  split <;> simp_all

/-- The parenthesis-skipping loop returns a suffix of its input. -/
theorem skipParens_suffix : ∀ (s : Str) (n : Nat), skipParens s n <:+ s := by
  intro s
  induction s with
  | nil =>
    intro n
    cases n <;> simp [skipParens]
  | cons c rest ih =>
    intro n
    cases n with
    | zero => simp [skipParens]
    | succ m =>
      by_cases h1 : c = '('
      · subst h1
        exact (ih (m + 2)).trans (List.suffix_cons _ _)
      · by_cases h2 : c = ')'
        · subst h2
          exact (ih m).trans (List.suffix_cons _ _)
        · rw [skipParens_cons_other h1 h2]
          exact (ih (m + 1)).trans (List.suffix_cons _ _)

/-- Every name collected by the clause loop is an infix of the scanned
suffix. -/
theorem clauseNamesF_subOf :
    ∀ (fuel : Nat) (s n : Str), n ∈ clauseNamesF fuel s → n <:+: s := by
  intro fuel
  induction fuel with
  | zero => intro s n h; simp [clauseNamesF] at h
  | succ f ih =>
    intro s n h
    unfold clauseNamesF at h
    cases hn : nameASparen (s.dropWhile pySpace) with
    | none => rw [hn] at h; simp at h
    | some p =>
      obtain ⟨name, rest⟩ := p
      rw [hn] at h
      dsimp only at h
      obtain ⟨hinf, hsuf⟩ := nameASparen_parts hn
      have hnameinf : n = name → n <:+: s := fun hb => hb ▸
        hinf.trans (List.dropWhile_suffix pySpace).isInfix
      have hrest : rest <:+ s := hsuf.trans (List.dropWhile_suffix pySpace)
      cases hsp : (skipParens rest 1).dropWhile pySpace with
      | nil =>
        rw [hsp] at h
        simp only [List.mem_singleton] at h
        exact hnameinf h
      | cons c r3 =>
        rw [hsp] at h
        split at h
        · rcases List.mem_cons.mp h with rfl | h2
          · exact hnameinf rfl
          · rename_i r3x heq
            have h4 : r3x <:+ (skipParens rest 1).dropWhile pySpace := by
              rw [hsp, heq]
              exact List.suffix_cons _ _
            have h5 : r3x <:+ s :=
              (h4.trans (List.dropWhile_suffix pySpace)).trans
                ((skipParens_suffix rest 1).trans hrest)
            exact (ih r3x n h2).trans h5.isInfix
        · simp only [List.mem_singleton] at h
          exact hnameinf h

/-- Membership in a fold of set unions. -/
theorem foldl_union_mem {β : Type} (f : β → Finset Str) :
    ∀ (L : List β) (A : Finset Str) (x : Str),
      x ∈ L.foldl (fun acc p => acc ∪ f p) A ↔ x ∈ A ∨ ∃ p ∈ L, x ∈ f p := by
  intro L
  induction L with
  | nil => intro A x; simp
  | cons p L ih =>
    intro A x
    rw [List.foldl_cons, ih]
    rw [List.exists_mem_cons_iff]
    simp [Finset.mem_union, or_assoc]

/-- Every name in the set CTE scanner's result is an infix of the scanned
text. -/
theorem mem_sql_cte_subOf (s x : Str)
    (hx : x ∈ SQLTableParser.extract_cte_names s) : x <:+: s := by
  unfold SQLTableParser.extract_cte_names at hx
  rw [foldl_union_mem] at hx
  rcases hx with h | ⟨p, hp, hxp⟩
  · simp at h
  · rw [cteSetF_eq_toFinset, List.mem_toFinset] at hxp
    have h1 := clauseNamesF_subOf _ _ _ hxp
    have h2 := (reFind_subOf tryWith (fun pw s t r hh => tryWith_eq hh) _ _ _ _ hp).2
    exact h1.trans h2.isInfix

/-- Every name in the list CTE scanner's result is an infix of the
comment-stripped input. -/
theorem mem_cte_list_subOf (sql x : Str)
    (hx : x ∈ CTEParser.extract_cte_names sql) :
    x <:+: CTEParser.remove_comments sql := by
  unfold CTEParser.extract_cte_names at hx
  simp only [List.mem_flatten, List.mem_map] at hx
  obtain ⟨l, ⟨p, hp, hpl⟩, hxl⟩ := hx
  rw [← hpl] at hxl
  unfold clauseNames at hxl
  have h1 := clauseNamesF_subOf _ _ _ hxl
  have h2 := (reFind_subOf tryWith (fun pw s t r hh => tryWith_eq hh) _ _ _ _ hp).2
  exact h1.trans h2.isInfix

/-- A successful association-list lookup exhibits membership. -/
theorem lookup_mem {l : List (String × Finset Str)} {k : String} {S : Finset Str}
    (h : List.lookup k l = some S) : (k, S) ∈ l := by
  induction l with
  | nil => simp [List.lookup] at h
  | cons e l ih =>
    obtain ⟨k1, v1⟩ := e
    rw [List.lookup_cons] at h
    cases hbe : (k == k1) with
    | true =>
      rw [hbe] at h
      simp only [Option.some.injEq] at h
      have hk : k = k1 := by simpa using hbe
      rw [hk, h]
      exact List.mem_cons_self _ _
    | false =>
      rw [hbe] at h
      exact List.mem_cons_of_mem _ (ih h)

/-- Every pattern in the table consumes a prefix of the input. -/
theorem patternList_dec (q : String × (Bool → Str → Option (Str × Str)))
    (hq : q ∈ SQLTableParser.patternList) :
    ∀ pw s t r, q.2 pw s = some (t, r) → s = t ++ r := by
  fin_cases hq <;>
    exact fun pw s t r h => (by first | exact tryPat_eq h | exact tryCte_eq h)

/-- Every name in any set of the `parse_sql` result is an infix of the
preprocessed, comment-stripped text. -/
theorem parse_sql_mem_subOf (sql : Str) (preprocess : Bool) (k : String)
    (S : Finset Str)
    (hS : (SQLTableParser.parse_sql sql preprocess).lookup k = some S)
    (x : Str) (hx : x ∈ S) : x <:+: procText sql preprocess := by
  have hmem := lookup_mem hS
  rw [parse_sql_eq] at hmem
  simp only [List.mem_append, List.mem_singleton] at hmem
  rcases hmem with (hmem | hmem) | hmem
  · obtain ⟨q, hq, hqe⟩ := List.mem_filterMap.mp hmem
    obtain ⟨-, he2, -, -⟩ := entryOf_some _ _ _ _ hqe
    have hxe : x ∈ SQLTableParser.extract_tables_from_pattern q.2
        (procText sql preprocess) := by
      have hx2 := hx
      rw [show S = ((k, S) : String × Finset Str).2 from rfl, he2] at hx2
      exact (Finset.mem_sdiff.mp hx2).1
    exact mem_extract_subOf q.2 (patternList_dec q hq) _ x hxe
  · have hS2 : S = allOf sql preprocess := congrArg Prod.snd hmem
    rw [hS2] at hx
    unfold allOf at hx
    rw [fold_all_mem] at hx
    rcases hx with h | ⟨q, hq, hxq⟩
    · simp at h
    · exact mem_extract_subOf q.2 (patternList_dec q hq) _ x
        (Finset.mem_sdiff.mp hxq).1
  · split at hmem
    · simp at hmem
    · simp only [List.mem_singleton] at hmem
      have hS2 : S = cteOf sql preprocess := congrArg Prod.snd hmem
      rw [hS2] at hx
      exact mem_sql_cte_subOf _ _ hx

/-- C6 (counterexample): a name can occur in the raw input only inside a
comment and still be reported.  In `FROM hid/*x*/den -- hidden` the input
splits as `FROM hid/*x*/den ` ++ the line comment `-- hidden` (which
starts at index 17), and every occurrence of `hidden` in the raw input
starts at index 20, i.e. inside that comment; yet comment stripping
splices `hid` and `den` into `hidden`, and `parse_sql` reports
`all_tables = {"hidden"}`. -/
theorem comment_only_splice :
    (("FROM hid/*x*/den -- hidden".data : Str)
        = "FROM hid/*x*/den ".data ++ "-- hidden".data) ∧
    (∀ i < ("FROM hid/*x*/den -- hidden".data : Str).length,
        (("FROM hid/*x*/den -- hidden".data : Str).drop i).take 6 = "hidden".data →
          i = 20) ∧
    (SQLTableParser.parse_sql "FROM hid/*x*/den -- hidden".data true).lookup
        "all_tables" = some {"hidden".data} :=
  ⟨by decide, by decide, by decide⟩

/-- C6 (amended): comment stripping runs before both extractions, but it
is pure deletion, so text around a removed comment splices together; the
guarantee that holds is about the stripped text: a table name that does
not occur as a contiguous substring of the comment-stripped text (rather
than one that merely occurred only inside a `--` or `/* */` comment of the
raw input) appears in no set of the `parse_sql` result and in no list
returned by `CTEParser.extract_cte_names`. -/
theorem comment_only_names_absent (sql : Str) (preprocess : Bool) (name : Str) :
    (¬ name <:+: procText sql preprocess →
      ∀ (k : String) (S : Finset Str),
        (SQLTableParser.parse_sql sql preprocess).lookup k = some S → name ∉ S) ∧
    (¬ name <:+: CTEParser.remove_comments sql →
      name ∉ CTEParser.extract_cte_names sql) := by
  constructor
  · intro hni k S hS hmem
    exact hni (parse_sql_mem_subOf sql preprocess k S hS name hmem)
  · intro hni hmem
    exact hni (mem_cte_list_subOf sql name hmem)

/-- Witness for C6: `hidden` occurs only inside comments, and is absent
from the results. -/
theorem comment_only_names_absent_witness :
    "hidden".data ∉ ({"a".data} : Finset Str) ∧
    "hidden".data ∉
      CTEParser.extract_cte_names "WITH x AS (SELECT 1) SELECT 2 -- hidden".data := by
  constructor
  · exact (comment_only_names_absent "SELECT * FROM a -- FROM hidden".data true
      "hidden".data).1 (by decide) "all_tables" {"a".data} (by decide)
  · exact (comment_only_names_absent "WITH x AS (SELECT 1) SELECT 2 -- hidden".data
      false "hidden".data).2 (by decide)

/-- Identifier-start characters are not whitespace. -/
theorem pySpace_false_of_identStart {c : Char} (h : identStart c = true) :
    pySpace c = false := by
  cases hpc : pySpace c
  · rfl
  · exfalso
    simp only [pySpace, Bool.or_eq_true, decide_eq_true_eq] at hpc
    rcases hpc with ((((rfl | rfl) | rfl) | rfl) | rfl) | rfl <;>
      exact absurd h (by decide)

/-- Word characters are not whitespace. -/
theorem pySpace_false_of_wordChar {c : Char} (h : wordChar c = true) :
    pySpace c = false := by
  cases hpc : pySpace c
  · rfl
  · exfalso
    simp only [pySpace, Bool.or_eq_true, decide_eq_true_eq] at hpc
    rcases hpc with ((((rfl | rfl) | rfl) | rfl) | rfl) | rfl <;>
      exact absurd h (by decide)

/-- `takeWhile` passes over an all-satisfying prefix. -/
theorem takeWhile_all_append {p : Char → Bool} :
    ∀ (l r : Str), l.all p = true → (l ++ r).takeWhile p = l ++ r.takeWhile p := by
  intro l
  induction l with
  | nil => intro r _; rfl
  | cons c l ih =>
    intro r h
    simp only [List.all_cons, Bool.and_eq_true] at h
    simp [List.takeWhile_cons, h.1, ih r h.2]

/-- `dropWhile` drops an all-satisfying prefix. -/
theorem dropWhile_all_append {p : Char → Bool} :
    ∀ (l r : Str), l.all p = true → (l ++ r).dropWhile p = r.dropWhile p := by
  intro l
  induction l with
  | nil => intro r _; rfl
  | cons c l ih =>
    intro r h
    simp only [List.all_cons, Bool.and_eq_true] at h
    simp [List.dropWhile_cons, h.1, ih r h.2]

/-- Unfolding of `hasWithCI` on a cons cell. -/
theorem hasWithCI_cons (c : Char) (rest : Str) :
    hasWithCI (c :: rest) =
      ("with".data.isPrefixOf ((c :: rest).map Char.toLower) || hasWithCI rest) := by
  simp [hasWithCI, containsStr]

/-- Without a case-insensitive `with` substring the `WITH` matcher fails. -/
theorem tryWith_none_of_noWith :
    ∀ (s : Str), hasWithCI s = false → ∀ pw, tryWith pw s = none := by
  intro s h pw
  cases htm : tryWith pw s with
  | none => rfl
  | some p =>
    obtain ⟨t, r⟩ := p
    exfalso
    unfold tryWith at htm
    split at htm
    · simp at htm
    · cases hm : matchCI ['w', 'i', 't', 'h'] s with
      | none => rw [hm] at htm; simp at htm
      | some r1 =>
        obtain ⟨pre, hpre, hmap⟩ := matchCI_eq _ _ _ hm
        have hms : s.map Char.toLower = "with".data ++ r1.map Char.toLower := by
          rw [hpre, List.map_append, hmap]
        have hpf : "with".data.isPrefixOf (s.map Char.toLower) = true := by
          rw [hms]
          exact List.isPrefixOf_iff_prefix.mpr ⟨_, rfl⟩
        cases s with
        | nil => simp at hms
        | cons c rest =>
          rw [hasWithCI_cons] at h
          simp only [Bool.or_eq_false_iff] at h
          rw [hpf] at h
          simp at h

/-- Without a case-insensitive `with` substring the `WITH` scan finds
nothing. -/
theorem reFind_tryWith_nil :
    ∀ (fuel : Nat) (pw : Bool) (s : Str),
      hasWithCI s = false → reFind tryWith fuel pw s = [] := by
  intro fuel
  induction fuel with
  | zero => intro pw s _; rfl
  | succ f ih =>
    intro pw s h
    cases s with
    | nil => rfl
    | cons c rest =>
      unfold reFind
      rw [tryWith_none_of_noWith _ h pw]
      apply ih
      rw [hasWithCI_cons] at h
      simp only [Bool.or_eq_false_iff] at h
      exact h.2

/-- C1 (counterexample): the body of a CTE may itself contain a `WITH`
clause start, which the scanner processes as well; on
`WITH a AS (WITH b AS (SELECT 1) SELECT 2) SELECT 3`, whose single
outer `WITH` clause defines exactly the one name `a`, the scanner returns
`["a", "b"]`, not `["a"]`. -/
theorem extract_cte_nested_with :
    CTEParser.extract_cte_names
        "WITH a AS (WITH b AS (SELECT 1) SELECT 2) SELECT 3".data
      = ["a".data, "b".data] ∧
    (["a".data, "b".data] : List Str) ≠ ["a".data] := by
  exact ⟨by decide, by decide⟩

/-- Identifier-start characters are word characters. -/
theorem wordChar_of_identStart {c : Char} (h : identStart c = true) :
    wordChar c = true := by
  simp only [identStart, Bool.or_eq_true, decide_eq_true_eq] at h
  rcases h with h | rfl
  · simp [wordChar, Char.isAlphanum, h]
  · decide

/-- At the head of a rendered `WITH` clause whose first name is an
identifier other than a case variant of `RECURSIVE`, the `WITH` matcher
consumes exactly the leading `WITH ` and leaves the rest. -/
theorem tryWith_at_render (name rest0 : Str) (hid : isIdent name = true)
    (hrec : name.map Char.toLower ≠ "recursive".data) :
    tryWith false ("WITH ".data ++ (name ++ ' ' :: rest0)) =
      some ("WITH ".data, name ++ ' ' :: rest0) := by
  obtain ⟨c0, cs, rfl⟩ : ∃ c0 cs, name = c0 :: cs := by
    cases name with
    | nil => simp [isIdent] at hid
    | cons a b => exact ⟨a, b, rfl⟩
  simp only [isIdent, Bool.and_eq_true] at hid
  obtain ⟨hc0, hcs⟩ := hid
  have hc0s : pySpace c0 = false := pySpace_false_of_identStart hc0
  have hspc : pySpace ' ' = true := by decide
  unfold tryWith
  rw [if_neg Bool.false_ne_true]
  have hm : matchCI ['w', 'i', 't', 'h']
      ("WITH ".data ++ ((c0 :: cs) ++ ' ' :: rest0)) =
      some (' ' :: ((c0 :: cs) ++ ' ' :: rest0)) := rfl
  rw [hm]
  have ht1 : (' ' :: ((c0 :: cs) ++ ' ' :: rest0)).takeWhile pySpace = [' '] := by
    simp [List.takeWhile_cons, hspc, hc0s]
  have hd1 : (' ' :: ((c0 :: cs) ++ ' ' :: rest0)).dropWhile pySpace =
      (c0 :: cs) ++ ' ' :: rest0 := by
    simp [List.dropWhile_cons, hspc, hc0s]
  dsimp only
  rw [ht1, hd1]
  rw [if_neg (by decide)]
  cases hm9 : matchCI ['r', 'e', 'c', 'u', 'r', 's', 'i', 'v', 'e']
      ((c0 :: cs) ++ ' ' :: rest0) with
  | none => rfl
  | some r3 =>
    obtain ⟨pre2, hpre2, hmap2⟩ := matchCI_eq _ _ _ hm9
    have hlen2 : pre2.length = 9 := by
      have h0 := congrArg List.length hmap2
      simpa using h0
    have hpre2' : pre2 = ((c0 :: cs) ++ ' ' :: rest0).take 9 := by
      rw [hpre2, ← hlen2, List.take_left]
    rcases lt_trichotomy ((c0 :: cs) : Str).length 9 with hlt | heq9 | hgt
    · exfalso
      have hsp_mem : ' ' ∈ pre2 := by
        rw [hpre2', List.take_append_eq_append_take,
          List.take_of_length_le (le_of_lt hlt)]
        refine List.mem_append_right _ ?_
        have h9 : 1 ≤ 9 - ((c0 :: cs) : Str).length := by omega
        cases hn : 9 - ((c0 :: cs) : Str).length with
        | zero => omega
        | succ k => simp [List.take_succ_cons]
      have hmem9 : ' ' ∈ ("recursive".data : Str) := by
        have h2 := List.mem_map_of_mem Char.toLower hsp_mem
        rw [hmap2] at h2
        have h3 : Char.toLower ' ' = ' ' := rfl
        rwa [h3] at h2
      exact absurd hmem9 (by decide)
    · exfalso
      have hpn : pre2 = c0 :: cs := by
        rw [hpre2', List.take_left' heq9]
      exact hrec (by rw [← hpn]; exact hmap2)
    · have hr3 : r3 = ((c0 :: cs) : Str).drop 9 ++ ' ' :: rest0 := by
        have h1 : r3 = ((c0 :: cs) ++ ' ' :: rest0).drop 9 := by
          rw [hpre2, ← hlen2, List.drop_left]
        rw [h1, List.drop_append_eq_append_drop,
          show 9 - ((c0 :: cs) : Str).length = 0 from by omega]
        rfl
      cases hd9 : ((c0 :: cs) : Str).drop 9 with
      | nil =>
        exfalso
        have hl9 := congrArg List.length hd9
        simp only [List.length_drop, List.length_nil] at hl9
        omega
      | cons d nd =>
        have hdd : d ∈ ((c0 :: cs) : Str).drop 9 := by
          rw [hd9]
          exact List.mem_cons_self _ _
        have hdmem : d ∈ ((c0 :: cs) : Str) := List.mem_of_mem_drop hdd
        have hdw : wordChar d = true := by
          rcases List.mem_cons.mp hdmem with rfl | hm2
          · exact wordChar_of_identStart hc0
          · exact List.all_eq_true.mp hcs d hm2
        have hsp3 : r3.takeWhile pySpace = [] := by
          rw [hr3, hd9]
          simp [List.takeWhile_cons, pySpace_false_of_wordChar hdw]
        dsimp only
        rw [hsp3]
        rfl

/-- A character other than a parenthesis leaves the balance unchanged. -/
theorem balAux_cons_other {c : Char} (h1 : c ≠ '(') (h2 : c ≠ ')')
    (t : Str) (n : Nat) : balAux (c :: t) n = balAux t n := by
  conv_lhs => unfold balAux
  split <;> simp_all

/-- Scanning a balanced segment from a positive depth returns to that
depth exactly at the end of the segment. -/
theorem skipParens_bal : ∀ (l : Str) (n : Nat) (rest : Str),
    balAux l n = true → skipParens (l ++ rest) (n + 1) = skipParens rest 1 := by
  intro l
  induction l with
  | nil =>
    intro n rest h
    simp only [balAux, decide_eq_true_eq] at h
    subst h
    rfl
  | cons c t ih =>
    intro n rest h
    by_cases h1 : c = '('
    · subst h1
      simp only [balAux] at h
      exact ih (n + 1) rest h
    · by_cases h2 : c = ')'
      · subst h2
        simp only [balAux] at h
        cases n with
        | zero => simp at h
        | succ m =>
          exact ih m rest h
      · rw [balAux_cons_other h1 h2] at h
        rw [List.cons_append, skipParens_cons_other h1 h2]
        exact ih n rest h

/-- The name pattern of the clause loop on a rendered definition start:
it returns the identifier and the text after the opening parenthesis. -/
theorem nameASparen_render (c0 : Char) (cs rest : Str)
    (hc0 : identStart c0 = true) (hcs : cs.all wordChar = true) :
    nameASparen (c0 :: (cs ++ (' ' :: 'A' :: 'S' :: ' ' :: '(' :: rest))) =
      some (c0 :: cs, rest) := by
  have hw : wordChar ' ' = false := by decide
  have h1 : (cs ++ (' ' :: 'A' :: 'S' :: ' ' :: '(' :: rest)).takeWhile wordChar
      = cs := by
    rw [takeWhile_all_append _ _ hcs]
    simp [List.takeWhile_cons, hw]
  have h2 : (cs ++ (' ' :: 'A' :: 'S' :: ' ' :: '(' :: rest)).dropWhile wordChar
      = ' ' :: 'A' :: 'S' :: ' ' :: '(' :: rest := by
    rw [dropWhile_all_append _ _ hcs]
    simp [List.dropWhile_cons, hw]
  unfold nameASparen
  dsimp only
  rw [if_pos hc0]
  rw [h1, h2]
  rfl

/-- One-step unfolding of the clause loop at positive fuel. -/
theorem clauseNamesF_succ (f : Nat) (s : Str) :
    clauseNamesF (f + 1) s =
      match nameASparen (s.dropWhile pySpace) with
      | none => []
      | some (name, rest) =>
        match (skipParens rest 1).dropWhile pySpace with
        | ',' :: r3 => name :: clauseNamesF f r3
        | _ => [name] := rfl

/-- On a rendered nonempty definition list preceded by whitespace and
followed by a main query that does not begin with a comma, the clause loop
returns exactly the defined names in order, given enough fuel. -/
theorem clauseNamesF_render :
    ∀ (ds : List CTEDefn) (sp tail : Str) (fuel : Nat),
      (∀ d ∈ ds, isIdent d.name = true) →
      (∀ d ∈ ds, balAux d.body 0 = true) →
      (tail.dropWhile pySpace).head? ≠ some ',' →
      sp.all pySpace = true →
      ds ≠ [] →
      ds.length ≤ fuel →
      clauseNamesF fuel (sp ++ (renderDefs ds ++ tail)) = ds.map CTEDefn.name := by
  intro ds
  induction ds with
  | nil =>
    intro sp tail fuel _ _ _ _ hne _
    exact absurd rfl hne
  | cons d ds ih =>
    intro sp tail fuel hid hbal htail hsp _ hfuel
    cases fuel with
    | zero => simp at hfuel
    | succ f =>
      have hidd : isIdent d.name = true := hid d (List.mem_cons_self _ _)
      obtain ⟨c0, cs, hnm⟩ : ∃ c0 cs, d.name = c0 :: cs := by
        cases hnm : d.name with
        | nil => rw [hnm] at hidd; simp [isIdent] at hidd
        | cons a b => exact ⟨a, b, rfl⟩
      have hidd2 := hidd
      rw [hnm] at hidd2
      simp only [isIdent, Bool.and_eq_true] at hidd2
      obtain ⟨hc0, hcs⟩ := hidd2
      have hb : balAux d.body 0 = true := hbal d (List.mem_cons_self _ _)
      have hAS : (" AS (".data : Str) = ' ' :: 'A' :: 'S' :: ' ' :: '(' :: [] := rfl
      cases ds with
      | nil =>
        have hX : renderDefs [d] ++ tail
            = c0 :: (cs ++ (' ' :: 'A' :: 'S' :: ' ' :: '(' ::
                (d.body ++ ')' :: tail))) := by
          show (d.name ++ " AS (".data ++ d.body ++ [')']) ++ tail = _
          rw [hnm, hAS]
          simp [List.append_assoc]
        have hdrop : ((sp ++ (renderDefs [d] ++ tail)).dropWhile pySpace)
            = c0 :: (cs ++ (' ' :: 'A' :: 'S' :: ' ' :: '(' ::
                (d.body ++ ')' :: tail))) := by
          rw [dropWhile_all_append _ _ hsp, hX, List.dropWhile_cons,
            pySpace_false_of_identStart hc0]
          simp
        rw [clauseNamesF_succ, hdrop,
          nameASparen_render c0 cs (d.body ++ ')' :: tail) hc0 hcs]
        have h2 : skipParens (')' :: tail) 1 = tail := by simp [skipParens]
        have hskip : skipParens (d.body ++ ')' :: tail) 1 = tail := by
          have h3 := skipParens_bal d.body 0 (')' :: tail) hb
          rw [h2] at h3
          exact h3
        dsimp only
        rw [hskip]
        cases hdt : tail.dropWhile pySpace with
        | nil => simp [hnm]
        | cons c r3 =>
          have hc : c ≠ ',' := by
            intro hcc
            apply htail
            rw [hdt, hcc]
            rfl
          split
          · rename_i r3' heq
            injection heq with hh1 hh2
            exact absurd hh1 hc
          · simp [hnm]
      | cons d2 ds2 =>
        have hX : renderDefs (d :: d2 :: ds2) ++ tail
            = c0 :: (cs ++ (' ' :: 'A' :: 'S' :: ' ' :: '(' ::
                (d.body ++ ')' :: (',' :: ' ' ::
                  (renderDefs (d2 :: ds2) ++ tail))))) := by
          show (d.name ++ " AS (".data ++ d.body ++ "), ".data ++
              renderDefs (d2 :: ds2)) ++ tail = _
          rw [hnm, hAS, show ("), ".data : Str) = ')' :: ',' :: ' ' :: [] from rfl]
          simp [List.append_assoc]
        have hdrop : ((sp ++ (renderDefs (d :: d2 :: ds2) ++ tail)).dropWhile pySpace)
            = c0 :: (cs ++ (' ' :: 'A' :: 'S' :: ' ' :: '(' ::
                (d.body ++ ')' :: (',' :: ' ' ::
                  (renderDefs (d2 :: ds2) ++ tail))))) := by
          rw [dropWhile_all_append _ _ hsp, hX, List.dropWhile_cons,
            pySpace_false_of_identStart hc0]
          simp
        rw [clauseNamesF_succ, hdrop,
          nameASparen_render c0 cs
            (d.body ++ ')' :: (',' :: ' ' :: (renderDefs (d2 :: ds2) ++ tail)))
            hc0 hcs]
        have h2 : skipParens (')' :: (',' :: ' ' :: (renderDefs (d2 :: ds2) ++ tail))) 1
            = ',' :: ' ' :: (renderDefs (d2 :: ds2) ++ tail) := by simp [skipParens]
        have hskip : skipParens
            (d.body ++ ')' :: (',' :: ' ' :: (renderDefs (d2 :: ds2) ++ tail))) 1
            = ',' :: ' ' :: (renderDefs (d2 :: ds2) ++ tail) := by
          have h3 := skipParens_bal d.body 0
            (')' :: (',' :: ' ' :: (renderDefs (d2 :: ds2) ++ tail))) hb
          rw [h2] at h3
          exact h3
        dsimp only
        rw [hskip]
        have hrec2 : clauseNamesF f (' ' :: (renderDefs (d2 :: ds2) ++ tail))
            = (d2 :: ds2).map CTEDefn.name := by
          have hfl : (d2 :: ds2).length ≤ f := by
            simp only [List.length_cons] at hfuel ⊢
            omega
          exact ih [' '] tail f
            (fun x hx => hid x (List.mem_cons_of_mem _ hx))
            (fun x hx => hbal x (List.mem_cons_of_mem _ hx))
            htail (by decide) (by simp) hfl
        have hdw2 : List.dropWhile pySpace
            (',' :: ' ' :: (renderDefs (d2 :: ds2) ++ tail))
            = ',' :: ' ' :: (renderDefs (d2 :: ds2) ++ tail) := by
          simp [List.dropWhile_cons, show pySpace ',' = false from by decide]
        rw [hdw2]
        show (c0 :: cs) :: clauseNamesF f (' ' :: (renderDefs (d2 :: ds2) ++ tail))
            = List.map CTEDefn.name (d :: d2 :: ds2)
        rw [hrec2]
        simp [hnm]

/-- A rendered nonempty definition list starts with the first name
followed by a space. -/
theorem renderDefs_cons_shape (d : CTEDefn) (ds : List CTEDefn) (tail : Str) :
    ∃ rest0, renderDefs (d :: ds) ++ tail = d.name ++ ' ' :: rest0 := by
  cases ds with
  | nil =>
    refine ⟨'A' :: 'S' :: ' ' :: '(' :: (d.body ++ ')' :: tail), ?_⟩
    show (d.name ++ " AS (".data ++ d.body ++ [')']) ++ tail = _
    rw [show (" AS (".data : Str) = ' ' :: 'A' :: 'S' :: ' ' :: '(' :: [] from rfl]
    simp [List.append_assoc]
  | cons d2 ds2 =>
    refine ⟨'A' :: 'S' :: ' ' :: '(' ::
      (d.body ++ ')' :: ',' :: ' ' :: (renderDefs (d2 :: ds2) ++ tail)), ?_⟩
    show (d.name ++ " AS (".data ++ d.body ++ "), ".data ++
        renderDefs (d2 :: ds2)) ++ tail = _
    rw [show (" AS (".data : Str) = ' ' :: 'A' :: 'S' :: ' ' :: '(' :: [] from rfl,
      show ("), ".data : Str) = ')' :: ',' :: ' ' :: [] from rfl]
    simp [List.append_assoc]

/-- The rendering of a definition list is at least as long as the list. -/
theorem length_le_renderDefs : ∀ ds : List CTEDefn,
    ds.length ≤ (renderDefs ds).length := by
  intro ds
  induction ds with
  | nil => simp [renderDefs]
  | cons d ds ih =>
    cases ds with
    | nil =>
      show (1 : Nat) ≤ ((d.name ++ " AS (".data ++ d.body ++ [')']) : Str).length
      simp only [List.length_append, List.length_cons, List.length_nil]
      omega
    | cons d2 ds2 =>
      show (d2 :: ds2).length + 1 ≤ ((d.name ++ " AS (".data ++ d.body ++
          "), ".data ++ renderDefs (d2 :: ds2)) : Str).length
      have h3 : ("), ".data : Str).length = 3 := rfl
      simp only [List.length_append, List.length_cons, h3] at ih ⊢
      omega

/-- One-step unfolding of the scanner at positive fuel on a nonempty
input. -/
theorem reFind_succ (tm : Bool → Str → Option (Str × Str)) (n : Nat) (pw : Bool)
    (c : Char) (rest : Str) :
    reFind tm (n + 1) pw (c :: rest) =
      match tm pw (c :: rest) with
      | some (t, r) => (t, r) :: reFind tm n (wordChar (t.getLastD ' ')) r
      | none => reFind tm n (wordChar c) rest := rfl

/-- C1 (amended): for every input `WITH <defs> <main query>` rendered from a
nonempty list of comma-separated definitions `name AS ( body )` — each name
an identifier, each body with balanced parentheses —
`CTEParser.extract_cte_names` returns exactly those names in left-to-right
definition order, provided the text is comment-free, the first name is not a
case variant of `RECURSIVE`, no case-insensitive `WITH` occurs after the
leading keyword, and the main query does not begin, after whitespace, with a
comma.  (Without the extra provisos the original claim fails: see the
nested-`WITH` counterexample.) -/
theorem extract_cte_wellformed
    (d0 : CTEDefn) (ds : List CTEDefn) (tail : Str)
    (hid : ∀ d ∈ d0 :: ds, isIdent d.name = true)
    (hbal : ∀ d ∈ d0 :: ds, balAux d.body 0 = true)
    (hrec : d0.name.map Char.toLower ≠ "recursive".data)
    (hnw : hasWithCI (renderDefs (d0 :: ds) ++ tail) = false)
    (htail : (tail.dropWhile pySpace).head? ≠ some ',')
    (hcln : CTEParser.remove_comments
        ("WITH ".data ++ (renderDefs (d0 :: ds) ++ tail))
        = "WITH ".data ++ (renderDefs (d0 :: ds) ++ tail)) :
    CTEParser.extract_cte_names ("WITH ".data ++ (renderDefs (d0 :: ds) ++ tail))
      = (d0 :: ds).map CTEDefn.name := by
  obtain ⟨rest0, hR⟩ := renderDefs_cons_shape d0 ds tail
  have htw := tryWith_at_render d0.name rest0 (hid d0 (List.mem_cons_self _ _)) hrec
  rw [← hR] at htw
  unfold CTEParser.extract_cte_names
  dsimp only
  rw [hcln]
  have hfind : reFind tryWith
      (("WITH ".data ++ (renderDefs (d0 :: ds) ++ tail)).length + 1) false
      ("WITH ".data ++ (renderDefs (d0 :: ds) ++ tail))
      = [("WITH ".data, renderDefs (d0 :: ds) ++ tail)] := by
    have hcons : ("WITH ".data ++ (renderDefs (d0 :: ds) ++ tail) : Str)
        = 'W' :: ('I' :: ('T' :: ('H' :: (' ' ::
            (renderDefs (d0 :: ds) ++ tail))))) := rfl
    rw [hcons] at htw ⊢
    rw [reFind_succ, htw]
    dsimp only
    rw [reFind_tryWith_nil _ _ _ hnw]
  rw [hfind]
  simp only [List.map_cons, List.map_nil, List.flatten_cons, List.flatten_nil,
    List.append_nil]
  have hlen : (d0 :: ds).length ≤ (renderDefs (d0 :: ds) ++ tail).length + 1 := by
    have h1 := length_le_renderDefs (d0 :: ds)
    simp only [List.length_append, List.length_cons] at *
    omega
  exact clauseNamesF_render (d0 :: ds) [] tail _ hid hbal htail (by decide)
    (by simp) hlen

/-- Witness for the amended C1 theorem at a concrete two-definition
clause. -/
theorem extract_cte_wellformed_witness :
    CTEParser.extract_cte_names
        ("WITH ".data ++
          (renderDefs [⟨"a".data, "SELECT 1".data⟩,
            ⟨"b".data, "SELECT (2)".data⟩] ++ " SELECT 3".data))
      = ([⟨"a".data, "SELECT 1".data⟩,
          ⟨"b".data, "SELECT (2)".data⟩] : List CTEDefn).map CTEDefn.name :=
  extract_cte_wellformed ⟨"a".data, "SELECT 1".data⟩
    [⟨"b".data, "SELECT (2)".data⟩] " SELECT 3".data
    (by decide) (by decide) (by decide) (by decide) (by decide) (by decide)

end PyToolkit
